import Mathlib

/-!
# The sharded batching dispatcher `multiBatcher`

A shallow embedding of `exporter/exporterhelper/internal/queuebatch/multi_batcher.go`
and a verification of its routing, publication, shutdown and worker-pool
properties.

## Conventions of the embedding

* Pointers are indices: a `*shardBatcher` is the index of its cell in
  `State.heap`, a `chan struct{}` is the index of its cell in `State.chans`.
  Go's `nil` is `none`.
* Values the dispatcher only stores and passes on (batch configuration, sizer,
  send function, host, completion callback) are handles; the dispatcher never
  looks inside them.
* Calls into collaborators whose code lives in other files
  (`shardBatcher.start`, `shardBatcher.shutdown`, `shardBatcher.Consume`,
  `Partitioner.GetKey`) are recorded, with their arguments, in `State.trace`,
  oldest first.
* A function that can fail to return normally (nil dereference, `make` with a
  negative size, a send that blocks for ever) returns `Option`; `none` is
  "does not return".
* `maxWorkers` is a Go `int`.  The constructor only compares it and counts up
  to it, so no arithmetic on it can overflow and it is modelled as `Int`.
* Go does not specify the order in which `sync.Map.Range` visits the entries.
  The order is a parameter (`RangeOrder`) of `Range`, of `Shutdown` and of each
  `Shutdown` call in a sequence of calls.
* The functions of the embedding describe runs in which the calls into the
  shards return.  `StartWith` and `ShutdownWith` take what the shard methods
  do (return with a report, panic, never return) as a parameter.
-/

set_option linter.unusedSectionVars false

namespace QueueBatch

/-- Index of a `shardBatcher` cell in the heap: the embedding of `*shardBatcher`. -/
abbrev ShardId := Nat

/-- Index of a channel cell: the embedding of a `chan struct{}` reference. -/
abbrev ChanRef := Nat

/-- An uninterpreted value that is only stored, compared and passed on. -/
abbrev Handle := Nat

/-- The batch configuration `BatchConfig`, never inspected by the dispatcher. -/
abbrev BatchConfig := Handle

/-! ## Channels of `struct{}` -/

/-- A buffered `chan struct{}`: its capacity and the number of buffered elements. -/
structure Chan where
  cap : Nat
  len : Nat
deriving DecidableEq, Repr

/-- Go's `make(chan struct{}, n)`: panics on a negative size. -/
def makeChan (n : Int) : Option Chan :=
  if n < 0 then none else some ⟨n.toNat, 0⟩

/-- A send `c <- struct{}{}` with no receiver waiting: it completes when the
buffer has room and blocks otherwise. -/
def Chan.send (c : Chan) : Option Chan :=
  if c.len < c.cap then some { c with len := c.len + 1 } else none

/-- A receive `<-c` with no sender waiting: it completes when the buffer is
not empty and blocks otherwise. -/
def Chan.recv (c : Chan) : Option Chan :=
  if 0 < c.len then some { c with len := c.len - 1 } else none

/-- The loop `for i := 0; i < n; i++ { c <- struct{}{} }`, by the number of
iterations that remain. -/
def sendLoop : Nat → Chan → Option Chan
  | 0, c => some c
  | k + 1, c => (c.send).bind (sendLoop k)

/-! ## `sync.Map` -/

namespace SyncMap

variable {Key : Type} [DecidableEq Key]

/-- The method `sync.Map.Load`. -/
def Load : List (Key × ShardId) → Key → Option ShardId
  | [], _ => none
  | (k, v) :: rest, key => if k = key then some v else Load rest key

/-- The method `sync.Map.LoadOrStore`: the value now stored under the key,
whether it was loaded (already present), and the map afterwards. -/
def LoadOrStore (m : List (Key × ShardId)) (key : Key) (value : ShardId) :
    ShardId × Bool × List (Key × ShardId) :=
  match Load m key with
  | some v => (v, true, m)
  | none => (value, false, m ++ [(key, value)])

/-- An order in which `sync.Map.Range` may visit the entries of a map.  Go does
not specify the order, so it is any rearrangement of the entries. -/
structure RangeOrder (Key : Type) where
  /-- The entries of the map in the order they are visited. -/
  visit : List (Key × ShardId) → List (Key × ShardId)
  /-- Every entry is visited exactly once. -/
  perm : ∀ m, (visit m).Perm m

/-- The order in which the entries were stored. -/
def RangeOrder.stored : RangeOrder Key :=
  ⟨fun m => m, fun m => List.Perm.refl m⟩

/-- The reverse of the order in which the entries were stored. -/
def RangeOrder.reversed : RangeOrder Key :=
  ⟨List.reverse, List.reverse_perm⟩

/-- Calls `f` on each of the given entries in turn and stops when `f` returns
`false`. -/
def rangeOver {σ : Type} (f : Key → ShardId → σ → σ × Bool) : List (Key × ShardId) → σ → σ
  | [], s => s
  | (k, v) :: rest, s =>
    match f k v s with
    | (s1, true) => rangeOver f rest s1
    | (s1, false) => s1

/-- The method `sync.Map.Range`: calls `f` on each entry, in the order `ord`,
and stops when `f` returns `false`. -/
def Range {σ : Type} (ord : RangeOrder Key) (f : Key → ShardId → σ → σ × Bool)
    (m : List (Key × ShardId)) (s : σ) : σ :=
  rangeOver f (ord.visit m) s

end SyncMap

/-! ## Data model -/

/-- A call made by the dispatcher into a collaborator. -/
inductive Event (Ctx Req : Type) where
  | getKey (ctx : Ctx) (req : Req)
  | start (s : ShardId) (ctx : Ctx) (host : Option Handle)
  | shutdown (s : ShardId) (ctx : Ctx)
  | consume (s : ShardId) (ctx : Ctx) (req : Req) (done : Handle)

/-- Modelled from the spec: the struct `shardBatcher` is declared in another
file of the package.  A shard is "bound to the Worker Pool, sizer, and
downstream sender"; the cell keeps the five arguments its constructor
`newShard` receives. -/
structure shardBatcher where
  cfg : BatchConfig
  sizerType : Handle
  sizer : Handle
  wp : Option ChanRef
  consumeFunc : Handle
deriving DecidableEq, Repr

/-- The struct `batcherSettings`.  The partitioner is an interface value
(`none` is `nil`) whose single method is `GetKey`. -/
structure batcherSettings (Ctx Req Key : Type) where
  sizerType : Handle
  sizer : Handle
  partitioner : Option (Ctx → Req → Key)
  next : Handle
  maxWorkers : Int

/-- The struct `multiBatcher`. -/
structure multiBatcher (Ctx Req Key : Type) where
  cfg : BatchConfig
  wp : Option ChanRef
  sizerType : Handle
  sizer : Handle
  partitioner : Option (Ctx → Req → Key)
  consumeFunc : Handle
  singleShard : Option ShardId
  shards : List (Key × ShardId)

/-- The program state seen by one `multiBatcher`: its own fields, the channel
cells, the shard cells and the calls made so far. -/
structure State (Ctx Req Key : Type) where
  mb : multiBatcher Ctx Req Key
  chans : List Chan
  heap : List shardBatcher
  trace : List (Event Ctx Req)

variable {Ctx Req Key : Type} [DecidableEq Key]

/-- Appends one collaborator call to the trace. -/
def State.log (st : State Ctx Req Key) (e : Event Ctx Req) : State Ctx Req Key :=
  { st with trace := st.trace ++ [e] }

/-- Replaces the registry `mb.shards`. -/
def State.setShards (st : State Ctx Req Key) (m : List (Key × ShardId)) : State Ctx Req Key :=
  { st with mb := { st.mb with shards := m } }

/-- Modelled from the spec: `newShard` is defined in another file of the
package.  It allocates a fresh shard cell holding its five arguments and
returns the pointer to it. -/
def newShard (st : State Ctx Req Key) (cfg : BatchConfig) (sizerType sizer : Handle)
    (wp : Option ChanRef) (consumeFunc : Handle) : ShardId × State Ctx Req Key :=
  (st.heap.length, { st with heap := st.heap ++ [⟨cfg, sizerType, sizer, wp, consumeFunc⟩] })

/-- Modelled from the spec: the method `shardBatcher.start` is defined in
another file of the package; the call is recorded in the trace.  This is the
effect of a call that returns; `ShardBehaviour` covers calls that end
otherwise. -/
def shardStart (st : State Ctx Req Key) (s : ShardId) (ctx : Ctx) (host : Option Handle) :
    State Ctx Req Key :=
  st.log (.start s ctx host)

/-- Modelled from the spec: the method `shardBatcher.shutdown` is defined in
another file of the package; the call is recorded in the trace.  This is the
effect of a call that returns; `ShardBehaviour` covers calls that end
otherwise. -/
def shardShutdown (st : State Ctx Req Key) (s : ShardId) (ctx : Ctx) : State Ctx Req Key :=
  st.log (.shutdown s ctx)

/-- Modelled from the spec: the method `shardBatcher.Consume` is defined in
another file of the package; the call is recorded in the trace. -/
def shardConsume (st : State Ctx Req Key) (s : ShardId) (ctx : Ctx) (req : Req) (done : Handle) :
    State Ctx Req Key :=
  st.log (.consume s ctx req done)

/-! ## The functions of `multi_batcher.go` -/

/-- The worker pool built by lines 37-43 of `newMultiBatcher`: `none` when the
construction does not return, `some none` for a nil channel. -/
def newWorkerPool (maxWorkers : Int) : Option (Option Chan) :=
  if maxWorkers ≠ 0 then
    (makeChan maxWorkers).bind fun c => (sendLoop maxWorkers.toNat c).map some
  else
    some none

/-- The function `newMultiBatcher`, run in an empty world. -/
def newMultiBatcher (bCfg : BatchConfig) (bSet : batcherSettings Ctx Req Key) :
    Option (State Ctx Req Key) :=
  (newWorkerPool bSet.maxWorkers).map fun pool =>
    let chans : List Chan := pool.toList
    let workerPool : Option ChanRef := pool.map fun _ => 0
    let mb : multiBatcher Ctx Req Key :=
      { cfg := bCfg
        wp := workerPool
        sizerType := bSet.sizerType
        sizer := bSet.sizer
        partitioner := bSet.partitioner
        consumeFunc := bSet.next
        singleShard := none
        shards := [] }
    let st : State Ctx Req Key := { mb := mb, chans := chans, heap := [], trace := [] }
    match bSet.partitioner with
    | none =>
      let r := newShard st mb.cfg mb.sizerType mb.sizer mb.wp mb.consumeFunc
      { r.2 with mb := { r.2.mb with singleShard := some r.1 } }
    | some _ => st

/-- The method `multiBatcher.getShard`. -/
def getShard (st : State Ctx Req Key) (ctx : Ctx) (req : Req) :
    Option (ShardId × State Ctx Req Key) :=
  match st.mb.singleShard with
  | some s => some (s, st)
  | none =>
    match st.mb.partitioner with
    | none => none
    | some p =>
      let key := p ctx req
      let st := st.log (.getKey ctx req)
      match SyncMap.Load st.mb.shards key with
      | some s => some (s, st)
      | none =>
        let r := newShard st st.mb.cfg st.mb.sizerType st.mb.sizer st.mb.wp st.mb.consumeFunc
        let newS := r.1
        let st := shardStart r.2 newS ctx none
        let r := SyncMap.LoadOrStore st.mb.shards key newS
        let s := r.1
        let loaded := r.2.1
        let st := st.setShards r.2.2
        let st := if loaded then shardShutdown st newS ctx else st
        some (s, st)

/-- The method `multiBatcher.Start`: the state afterwards and the returned error. -/
def Start (st : State Ctx Req Key) (ctx : Ctx) (host : Option Handle) :
    State Ctx Req Key × Option Handle :=
  match st.mb.singleShard with
  | some s => (shardStart st s ctx host, none)
  | none => (st, none)

/-- The method `multiBatcher.Consume`. -/
def Consume (st : State Ctx Req Key) (ctx : Ctx) (req : Req) (done : Handle) :
    Option (State Ctx Req Key) :=
  (getShard st ctx req).map fun r => shardConsume r.2 r.1 ctx req done

/-- The callback passed to `Range` in `Shutdown`, with the goroutine it starts
run on the spot: `wg.Add(1)`, the shard's `shutdown`, `wg.Done()`. -/
def shutdownEach (ctx : Ctx) (_key : Key) (shard : ShardId) (a : State Ctx Req Key × Nat) :
    (State Ctx Req Key × Nat) × Bool :=
  let wg := a.2 + 1
  let st := shardShutdown a.1 shard ctx
  let wg := wg - 1
  ((st, wg), true)

/-- The method `multiBatcher.Shutdown`, with `Range` visiting the registry in
the order `ord` and every goroutine run as soon as it is started: the state
afterwards and the returned error.  `wg.Wait()` returns when the counter is
zero. -/
def Shutdown (st : State Ctx Req Key) (ctx : Ctx) (ord : SyncMap.RangeOrder Key) :
    Option (State Ctx Req Key × Option Handle) :=
  match st.mb.singleShard with
  | some s => some (shardShutdown st s ctx, none)
  | none =>
    let r := SyncMap.Range ord (shutdownEach ctx) st.mb.shards (st, 0)
    if r.2 = 0 then some (r.1, none) else none

/-- One call on the dispatcher's public interface.  A call of `Shutdown` comes
with the order in which its `Range` happens to visit the registry. -/
inductive Call (Ctx Req Key : Type) where
  | start (ctx : Ctx) (host : Option Handle)
  | consume (ctx : Ctx) (req : Req) (done : Handle)
  | shutdown (ctx : Ctx) (ord : SyncMap.RangeOrder Key)

/-- Runs one call to completion. -/
def runCall (st : State Ctx Req Key) : Call Ctx Req Key → Option (State Ctx Req Key)
  | .start ctx host => some (Start st ctx host).1
  | .consume ctx req done => Consume st ctx req done
  | .shutdown ctx ord => (Shutdown st ctx ord).map Prod.fst

/-- Runs a sequence of calls one after another. -/
def runCalls : List (Call Ctx Req Key) → State Ctx Req Key → Option (State Ctx Req Key)
  | [], st => some st
  | c :: cs, st => (runCall st c).bind (runCalls cs)

/-! ## Observations on the trace -/

/-- Number of `start` calls made on shard `s`. -/
def startCount (tr : List (Event Ctx Req)) (s : ShardId) : Nat :=
  tr.countP fun e => match e with
    | .start s1 _ _ => s1 = s
    | _ => false

/-- Number of `shutdown` calls made on shard `s`. -/
def shutdownCount (tr : List (Event Ctx Req)) (s : ShardId) : Nat :=
  tr.countP fun e => match e with
    | .shutdown s1 _ => s1 = s
    | _ => false

/-- Number of `GetKey` calls made on the partitioner. -/
def getKeyCount (tr : List (Event Ctx Req)) : Nat :=
  tr.countP fun e => match e with
    | .getKey _ _ => true
    | _ => false

/-! ## Invariants of sequential runs -/

/-- The cell `newShard` builds from the dispatcher's own fields. -/
def ownCell (mb : multiBatcher Ctx Req Key) : shardBatcher :=
  ⟨mb.cfg, mb.sizerType, mb.sizer, mb.wp, mb.consumeFunc⟩

/-- The state after `getShard` has created, started and published a shard for
a key that was not registered. -/
def publishFresh (st : State Ctx Req Key) (key : Key) (ctx : Ctx) (req : Req) : State Ctx Req Key :=
  { mb := { st.mb with shards := st.mb.shards ++ [(key, st.heap.length)] }
    chans := st.chans
    heap := st.heap ++ [ownCell st.mb]
    trace := st.trace ++ [.getKey ctx req, .start st.heap.length ctx none] }

/-- The fields of the dispatcher that no method assigns after construction,
and the channel cells, agree in two states. -/
def SameConfig (a b : State Ctx Req Key) : Prop :=
  b.mb.cfg = a.mb.cfg ∧ b.mb.wp = a.mb.wp ∧ b.mb.sizerType = a.mb.sizerType ∧
  b.mb.sizer = a.mb.sizer ∧ b.mb.partitioner = a.mb.partitioner ∧
  b.mb.consumeFunc = a.mb.consumeFunc ∧ b.mb.singleShard = a.mb.singleShard ∧
  b.chans = a.chans

/-- Invariant of a partitioned dispatcher whose calls run one after another. -/
structure SeqInv (p : Ctx → Req → Key) (st : State Ctx Req Key) : Prop where
  single : st.mb.singleShard = none
  part : st.mb.partitioner = some p
  keys : (st.mb.shards.map Prod.fst).Nodup
  vals : st.mb.shards.map Prod.snd = List.range st.heap.length
  cells : ∀ c ∈ st.heap, c = ownCell st.mb
  starts : ∀ s : Nat, startCount st.trace s = if s < st.heap.length then 1 else 0
  routed : ∀ (s : Nat) ctx req done, Event.consume s ctx req done ∈ st.trace →
    SyncMap.Load st.mb.shards (p ctx req) = some s
  asked : ∀ ctx req, Event.getKey ctx req ∈ st.trace → p ctx req ∈ st.mb.shards.map Prod.fst

/-- The calls that consume the given requests one after another. -/
def consumeCalls (reqs : List (Ctx × Req × Handle)) : List (Call Ctx Req Key) :=
  reqs.map fun r => Call.consume r.1 r.2.1 r.2.2

/-- The partition keys of the given requests, in order. -/
def keysOf (p : Ctx → Req → Key) (reqs : List (Ctx × Req × Handle)) : List Key :=
  reqs.map fun r => p r.1 r.2.1

/-! ## Concrete scenarios -/

/-- Tenant identifiers used as partition keys in the scenarios. -/
inductive Tenant where
  | A
  | B
  | C
deriving DecidableEq, Repr

/-- A partitioner that maps a request to the tenant it carries. -/
def tenantOf (_ctx : Unit) (req : Tenant × Nat) : Tenant := req.1

/-- Settings of a partitioned dispatcher with two workers. -/
def tenantSettings : batcherSettings Unit (Tenant × Nat) Tenant :=
  { sizerType := 1, sizer := 2, partitioner := some tenantOf, next := 3, maxWorkers := 2 }

/-- Settings of an unpartitioned dispatcher with two workers. -/
def plainSettings : batcherSettings Unit (Tenant × Nat) Tenant :=
  { sizerType := 1, sizer := 2, partitioner := none, next := 3, maxWorkers := 2 }

/-- Five requests of tenants A, B, A, B, C. -/
def tenantRequests : List (Unit × (Tenant × Nat) × Handle) :=
  [((), (.A, 10), 100), ((), (.B, 11), 101), ((), (.A, 12), 102), ((), (.B, 13), 103),
   ((), (.C, 14), 104)]

/-- Invariant of an unpartitioned dispatcher whose calls run one after another. -/
structure SingleInv (st : State Ctx Req Key) : Prop where
  single : st.mb.singleShard = some 0
  part : st.mb.partitioner = none
  heap : st.heap = [ownCell st.mb]
  shards : st.mb.shards = []
  asked : getKeyCount st.trace = 0
  routed : ∀ (s : Nat) ctx req done, Event.consume s ctx req done ∈ st.trace → s = 0

/-! ## `getShard` as a sequence of atomic steps

Between two atomic steps of one call other calls may run.  The control state
of a call records the values of its local variables that are still live. -/

/-- Control state of one call of `getShard`. -/
inductive Pc (Ctx Req Key : Type) where
  /-- Called with `ctx` and `req`; nothing executed yet. -/
  | entry (ctx : Ctx) (req : Req)
  /-- After `key := mb.partitioner.GetKey(ctx, req)`. -/
  | keyed (ctx : Ctx) (key : Key)
  /-- After `mb.shards.Load(key)` did not find the key. -/
  | missed (ctx : Ctx) (key : Key)
  /-- After `newS := newShard(...)` and `newS.start(ctx, nil)`. -/
  | created (ctx : Ctx) (key : Key) (newS : ShardId)
  /-- After `s, loaded := mb.shards.LoadOrStore(key, newS)`. -/
  | stored (ctx : Ctx) (newS : ShardId) (s : ShardId) (loaded : Bool)
  /-- The call has returned `s`. -/
  | returned (s : ShardId)
  /-- The call has panicked on a nil partitioner. -/
  | panicked

/-- One atomic step of a call of `getShard`: the test of `mb.singleShard`
together with `GetKey`, then `Load`, then `newShard` with `start`, then
`LoadOrStore`, then the shutdown of the new shard if the value was loaded.
A call that has returned or panicked does nothing. -/
def stepGetShard (st : State Ctx Req Key) : Pc Ctx Req Key → State Ctx Req Key × Pc Ctx Req Key
  | .entry ctx req =>
    match st.mb.singleShard with
    | some s => (st, .returned s)
    | none =>
      match st.mb.partitioner with
      | none => (st, .panicked)
      | some p => (st.log (.getKey ctx req), .keyed ctx (p ctx req))
  | .keyed ctx key =>
    match SyncMap.Load st.mb.shards key with
    | some s => (st, .returned s)
    | none => (st, .missed ctx key)
  | .missed ctx key =>
    let r := newShard st st.mb.cfg st.mb.sizerType st.mb.sizer st.mb.wp st.mb.consumeFunc
    (shardStart r.2 r.1 ctx none, .created ctx key r.1)
  | .created ctx key newS =>
    let r := SyncMap.LoadOrStore st.mb.shards key newS
    (st.setShards r.2.2, .stored ctx newS r.1 r.2.1)
  | .stored ctx newS s loaded =>
    (if loaded then shardShutdown st newS ctx else st, .returned s)
  | .returned s => (st, .returned s)
  | .panicked => (st, .panicked)

/-- Runs `n` atomic steps of one call with no other call in between. -/
def stepsGetShard : Nat → State Ctx Req Key × Pc Ctx Req Key → State Ctx Req Key × Pc Ctx Req Key
  | 0, a => a
  | n + 1, a => stepsGetShard n (stepGetShard a.1 a.2)

/-- The shared state together with the control states of the calls in flight. -/
structure Sys (Ctx Req Key : Type) where
  st : State Ctx Req Key
  threads : List (Pc Ctx Req Key)

/-- The call with index `i` takes its next atomic step. -/
def Sys.step (sys : Sys Ctx Req Key) (i : Nat) : Sys Ctx Req Key :=
  match sys.threads[i]? with
  | none => sys
  | some pc =>
    let r := stepGetShard sys.st pc
    { st := r.1, threads := sys.threads.set i r.2 }

/-- Runs a schedule: the list of the indices of the calls that step, in order. -/
def Sys.run (sys : Sys Ctx Req Key) : List Nat → Sys Ctx Req Key
  | [] => sys
  | i :: rest => (sys.step i).run rest

/-- The calls of `getShard` for the given contexts and requests, all at their entry. -/
def raceStart (st : State Ctx Req Key) (calls : List (Ctx × Req)) : Sys Ctx Req Key :=
  { st := st, threads := calls.map fun c => Pc.entry c.1 c.2 }

/-- Whether a call has returned. -/
def Pc.isReturned : Pc Ctx Req Key → Bool
  | .returned _ => true
  | _ => false

/-- The shard a call has constructed and has neither published nor shut down yet. -/
def Pc.owner : Pc Ctx Req Key → Option ShardId
  | .created _ _ newS => some newS
  | .stored _ newS _ true => some newS
  | _ => none

/-- Number of atomic steps a call has behind it, counting a return as the fifth. -/
def Pc.rank : Pc Ctx Req Key → Nat
  | .entry _ _ => 0
  | .keyed _ _ => 1
  | .missed _ _ => 2
  | .created _ _ _ => 3
  | .stored _ _ _ _ => 4
  | .returned _ => 5
  | .panicked => 0

/-- Number of calls in flight that own shard `s`. -/
def ownerCount (ts : List (Pc Ctx Req Key)) (s : ShardId) : Nat :=
  ts.countP fun pc => pc.owner = some s

/-- The shards are allocated consecutively: the registry and the trace mention
only shards that have been constructed. -/
structure State.WF (st : State Ctx Req Key) : Prop where
  registered : ∀ e ∈ st.mb.shards, e.2 < st.heap.length
  started : ∀ s : Nat, st.heap.length ≤ s → startCount st.trace s = 0
  stopped : ∀ s : Nat, st.heap.length ≤ s → shutdownCount st.trace s = 0

/-- What is known of a call in flight when all calls compute the key `K` and
started from the state `st0`. -/
def ThreadOk (p : Ctx → Req → Key) (K : Key) (st0 st : State Ctx Req Key) :
    Pc Ctx Req Key → Prop
  | .entry ctx req => p ctx req = K
  | .keyed _ key => key = K
  | .missed _ key => key = K
  | .created _ key newS => key = K ∧ st0.heap.length ≤ newS
  | .stored _ newS s loaded =>
    SyncMap.Load st.mb.shards K = some s ∧ (loaded = false → s = newS) ∧
      st0.heap.length ≤ newS
  | .returned s => SyncMap.Load st.mb.shards K = some s
  | .panicked => False

/-- One if shard `s` is registered under `K`, zero otherwise. -/
def winnerCount (st : State Ctx Req Key) (K : Key) (s : ShardId) : Nat :=
  if SyncMap.Load st.mb.shards K = some s then 1 else 0

/-- One if shard `s` was constructed after the state `st0`, zero otherwise. -/
def freshCount (st0 st : State Ctx Req Key) (s : Nat) : Nat :=
  if st0.heap.length ≤ s ∧ s < st.heap.length then 1 else 0

/-- Invariant of calls of `getShard` that race on the key `K`, which was not
registered in the state `st0` they started from.  Every shard constructed
since is started once and is exactly one of: owned by a call in flight,
registered under `K`, or shut down once. -/
structure RaceInv (p : Ctx → Req → Key) (K : Key) (st0 : State Ctx Req Key)
    (sys : Sys Ctx Req Key) : Prop where
  single : sys.st.mb.singleShard = none
  part : sys.st.mb.partitioner = some p
  grow : st0.heap.length ≤ sys.st.heap.length
  reg : (sys.st.mb.shards = st0.mb.shards ∧ SyncMap.Load sys.st.mb.shards K = none) ∨
    ∃ w : Nat, st0.heap.length ≤ w ∧ sys.st.mb.shards = st0.mb.shards ++ [(K, w)] ∧
      SyncMap.Load sys.st.mb.shards K = some w
  starts : ∀ s : Nat, startCount sys.st.trace s = startCount st0.trace s + freshCount st0 sys.st s
  stops : ∀ s : Nat, shutdownCount sys.st.trace s + ownerCount sys.threads s
      + winnerCount sys.st K s = shutdownCount st0.trace s + freshCount st0 sys.st s
  threads : ∀ (i : Nat) pc, sys.threads[i]? = some pc → ThreadOk p K st0 sys.st pc

/-- The state right after `newMultiBatcher 7 tenantSettings`. -/
def tenantState : State Unit (Tenant × Nat) Tenant :=
  { mb := { cfg := 7, wp := some 0, sizerType := 1, sizer := 2, partitioner := some tenantOf,
            consumeFunc := 3, singleShard := none, shards := [] }
    chans := [⟨2, 2⟩]
    heap := []
    trace := [] }

/-- Two calls of `getShard` for requests of tenant A. -/
def tenantRace : List (Unit × (Tenant × Nat)) := [((), (.A, 10)), ((), (.A, 12))]

/-- The state after the dispatcher of `tenantState` has consumed one request of
tenant A: shard 0 is registered under A. -/
def tenantStateA : State Unit (Tenant × Nat) Tenant :=
  { mb := { tenantState.mb with shards := [(Tenant.A, 0)] }
    chans := [⟨2, 2⟩]
    heap := [ownCell tenantState.mb]
    trace := [.getKey () (.A, 10), .start 0 () none, .consume 0 () (.A, 10) 100] }

/-! ## `Shutdown` in partitioned mode as a system of goroutines

`Shutdown` walks the registry with `Range`; for each entry it adds one to the
wait group and starts a goroutine that calls the shard's `shutdown` and then,
deferred, `wg.Done()`.  After `Range` it blocks in `wg.Wait()`. -/

/-- Control state of one goroutine started by `Shutdown`, with its shard. -/
inductive Worker where
  /-- Started; `shutdown` not called yet. -/
  | ready (shard : ShardId)
  /-- Inside the call `shard.shutdown(ctx)`. -/
  | running (shard : ShardId)
  /-- The call to `shutdown` has returned; the deferred `wg.Done()` is pending. -/
  | finishing (shard : ShardId)
  /-- After `wg.Done()`. -/
  | exited (shard : ShardId)
deriving DecidableEq, Repr

/-- The shard a goroutine shuts down. -/
def Worker.shard : Worker → ShardId
  | .ready s => s
  | .running s => s
  | .finishing s => s
  | .exited s => s

/-- Number of steps a goroutine has behind it. -/
def Worker.rank : Worker → Nat
  | .ready _ => 0
  | .running _ => 1
  | .finishing _ => 2
  | .exited _ => 3

/-- The state of one call of `Shutdown` in partitioned mode. -/
structure Fanout (Ctx Req Key : Type) where
  /-- The shared program state. -/
  st : State Ctx Req Key
  /-- The context passed to `Shutdown`. -/
  ctx : Ctx
  /-- The entries `Range` has still to visit. -/
  todo : List (Key × ShardId)
  /-- The goroutines started so far, in the order they were started. -/
  workers : List Worker
  /-- The counter of the wait group. -/
  wg : Nat
  /-- Unset while `Shutdown` runs; the returned error once it has returned. -/
  result : Option (Option Handle)

/-- Who takes the next step: the caller inside `Range`, the goroutine with the
given index, or the caller inside `wg.Wait()`. -/
inductive FanoutAction where
  | range
  | work (i : Nat)
  | wait
deriving DecidableEq, Repr

/-- The call `Shutdown(ctx)` at its entry, past the test of `mb.singleShard`,
with `Range` about to visit the registry in the order `ord`. -/
def fanoutStart (st : State Ctx Req Key) (ctx : Ctx) (ord : SyncMap.RangeOrder Key) :
    Fanout Ctx Req Key :=
  { st := st, ctx := ctx, todo := ord.visit st.mb.shards, workers := [], wg := 0,
    result := none }

/-- One step of a goroutine: call `shutdown`, return from it, `wg.Done()`. -/
def Fanout.work (f : Fanout Ctx Req Key) (i : Nat) : Fanout Ctx Req Key :=
  match f.workers[i]? with
  | none => f
  | some (.ready s) =>
    { f with st := shardShutdown f.st s f.ctx, workers := f.workers.set i (.running s) }
  | some (.running s) => { f with workers := f.workers.set i (.finishing s) }
  | some (.finishing s) => { f with wg := f.wg - 1, workers := f.workers.set i (.exited s) }
  | some (.exited _) => f

/-- One atomic step of the system.  A step that is not enabled leaves the
system as it is: `Range` with no entry left, a goroutine that does not exist
or has exited, `wg.Wait()` while `Range` is under way or the counter is not
zero, and any step of the caller after it has returned. -/
def Fanout.step (f : Fanout Ctx Req Key) : FanoutAction → Fanout Ctx Req Key
  | .range =>
    match f.result, f.todo with
    | none, (_, shard) :: rest =>
      { f with wg := f.wg + 1, workers := f.workers ++ [.ready shard], todo := rest }
    | _, _ => f
  | .work i => f.work i
  | .wait =>
    match f.result, f.todo with
    | none, [] => if f.wg = 0 then { f with result := some none } else f
    | _, _ => f

/-- Runs a schedule of steps. -/
def Fanout.run (f : Fanout Ctx Req Key) : List FanoutAction → Fanout Ctx Req Key
  | [] => f
  | a :: rest => (f.step a).run rest

/-- Number of `shutdown` calls on shard `s` the goroutines have made. -/
def invokedCount (ws : List Worker) (s : ShardId) : Nat :=
  ws.countP fun w => decide (w.shard = s ∧ 1 ≤ w.rank)

/-- Number of goroutines that have not yet called `wg.Done()`. -/
def liveCount (ws : List Worker) : Nat :=
  ws.countP fun w => decide (w.rank < 3)

/-- Invariant of a call of `Shutdown(ctx)` that started in the state `st` and
whose `Range` visits the entries `visit`. -/
structure FanoutInv (st : State Ctx Req Key) (ctx : Ctx) (visit : List (Key × ShardId))
    (f : Fanout Ctx Req Key) : Prop where
  ctx_eq : f.ctx = ctx
  split : f.workers.map Worker.shard ++ f.todo.map Prod.snd = visit.map Prod.snd
  counter : f.wg = liveCount f.workers
  calls : ∃ order : List ShardId,
    f.st = { st with trace := st.trace ++ order.map fun s => Event.shutdown s ctx } ∧
    ∀ s : Nat, order.count s = invokedCount f.workers s
  done : ∀ r, f.result = some r → r = none ∧ f.todo = [] ∧ f.wg = 0

/-- The state after the dispatcher of `tenantState` has consumed the five
tenant requests: shards 0, 1 and 2 are registered under A, B and C. -/
def tenantStateABC : State Unit (Tenant × Nat) Tenant :=
  { mb := { tenantState.mb with shards := [(Tenant.A, 0), (Tenant.B, 1), (Tenant.C, 2)] }
    chans := [⟨2, 2⟩]
    heap := [ownCell tenantState.mb, ownCell tenantState.mb, ownCell tenantState.mb]
    trace := [.getKey () (.A, 10), .start 0 () none, .consume 0 () (.A, 10) 100,
              .getKey () (.B, 11), .start 1 () none, .consume 1 () (.B, 11) 101,
              .getKey () (.A, 12), .consume 0 () (.A, 12) 102,
              .getKey () (.B, 13), .consume 1 () (.B, 13) 103,
              .getKey () (.C, 14), .start 2 () none, .consume 2 () (.C, 14) 104] }

/-- A schedule in which `Range` and the three goroutines interleave. -/
def tenantShutdownSchedule : List FanoutAction :=
  [.range, .wait, .range, .work 1, .work 1, .range, .work 0, .wait, .work 2, .work 1, .work 0,
   .work 2, .work 0, .wait, .work 2, .wait]

/-! ## The worker pool on the flush path

The flush path of a shard is not in `multi_batcher.go`.  It is modelled from
the specification: a flush first acquires a permit from the pool its shard was
constructed with (blocking until one is available; no acquisition when the
shard has no pool), then invokes the downstream sender, then releases the
permit on every exit path. -/

/-- Modelled from the spec: one flush operation of a shard, whose code is in
another file of the package.  It waits for a permit, then sends while holding
it, then is done having released it. -/
inductive Flush where
  | waiting (shard : ShardId)
  | sending (shard : ShardId)
  | done (shard : ShardId)
deriving DecidableEq, Repr

/-- The dispatcher's state together with the flush operations of its shards. -/
structure PoolSys (Ctx Req Key : Type) where
  st : State Ctx Req Key
  flushes : List Flush

/-- What happens next: a call on the dispatcher runs, a shard begins a flush,
the flush with the given index acquires its permit, or it finishes its send
(successfully or not) and releases its permit. -/
inductive PoolAction (Ctx Req Key : Type) where
  | call (c : Call Ctx Req Key)
  | submit (shard : ShardId)
  | acquire (i : Nat)
  | release (i : Nat) (ok : Bool)

/-- Modelled from the spec: acquiring a permit on the flush path, whose code
is in another file of the package.  The flush of shard `s` receives from the
pool of `s`; it stays where it is while the pool is empty, and needs no permit
when `s` has no pool. -/
def PoolSys.acquire (sys : PoolSys Ctx Req Key) (i : Nat) : PoolSys Ctx Req Key :=
  match sys.flushes[i]? with
  | some (.waiting s) =>
    match sys.st.heap[s]? with
    | none => sys
    | some cell =>
      match cell.wp with
      | none => { sys with flushes := sys.flushes.set i (.sending s) }
      | some ref =>
        match sys.st.chans[ref]? with
        | none => sys
        | some c =>
          match c.recv with
          | none => sys
          | some c1 =>
            { st := { sys.st with chans := sys.st.chans.set ref c1 }
              flushes := sys.flushes.set i (.sending s) }
  | _ => sys

/-- Modelled from the spec: releasing a permit when the send has finished,
whose code is in another file of the package.  The flush of shard `s` sends
the permit back to the pool of `s`, whatever the outcome of the send. -/
def PoolSys.release (sys : PoolSys Ctx Req Key) (i : Nat) (_ok : Bool) : PoolSys Ctx Req Key :=
  match sys.flushes[i]? with
  | some (.sending s) =>
    match sys.st.heap[s]? with
    | none => sys
    | some cell =>
      match cell.wp with
      | none => { sys with flushes := sys.flushes.set i (.done s) }
      | some ref =>
        match sys.st.chans[ref]? with
        | none => sys
        | some c =>
          match c.send with
          | none => sys
          | some c1 =>
            { st := { sys.st with chans := sys.st.chans.set ref c1 }
              flushes := sys.flushes.set i (.done s) }
  | _ => sys

/-- One step of the dispatcher together with the flushes of its shards. -/
def PoolSys.step (sys : PoolSys Ctx Req Key) : PoolAction Ctx Req Key → PoolSys Ctx Req Key
  | .call c =>
    match runCall sys.st c with
    | some st1 => { sys with st := st1 }
    | none => sys
  | .submit s => { sys with flushes := sys.flushes ++ [.waiting s] }
  | .acquire i => sys.acquire i
  | .release i ok => sys.release i ok

/-- Runs a schedule of steps. -/
def PoolSys.run (sys : PoolSys Ctx Req Key) : List (PoolAction Ctx Req Key) → PoolSys Ctx Req Key
  | [] => sys
  | a :: rest => (sys.step a).run rest

/-- Number of flushes that are executing a downstream send. -/
def sendingCount (fs : List Flush) : Nat :=
  fs.countP fun f => match f with
    | .sending _ => true
    | _ => false

/-- Invariant of a dispatcher with a pool of `n` permits: the permits in the
pool and the flushes that are sending add up to `n`. -/
structure PoolInv (n : Nat) (sys : PoolSys Ctx Req Key) : Prop where
  shared : (∃ p : Ctx → Req → Key, SeqInv p sys.st) ∨ SingleInv sys.st
  wp : sys.st.mb.wp = some 0
  permits : ∃ c : Chan, sys.st.chans = [c] ∧ c.cap = n ∧ c.len + sendingCount sys.flushes = n
  alive : ∀ (i s : Nat), sys.flushes[i]? = some (.sending s) → s < sys.st.heap.length

/-- The dispatcher right after construction, with no flush under way. -/
def poolStart (st : State Ctx Req Key) : PoolSys Ctx Req Key :=
  { st := st, flushes := [] }

/-- The state right after `newMultiBatcher 7 plainSettings`. -/
def plainState : State Unit (Tenant × Nat) Tenant :=
  { mb := { cfg := 7, wp := some 0, sizerType := 1, sizer := 2, partitioner := none,
            consumeFunc := 3, singleShard := some 0, shards := [] }
    chans := [⟨2, 2⟩]
    heap := [⟨7, 1, 2, some 0, 3⟩]
    trace := [] }

/-- Two workers, one shard: the dispatcher is started and consumes a request,
three flushes begin, two acquire a permit, the third finds the pool empty
until the first has released its permit. -/
def plainSchedule : List (PoolAction Unit (Tenant × Nat) Tenant) :=
  [.call (.start () none), .call (.consume () (.A, 10) 100), .submit 0, .submit 0, .submit 0,
   .acquire 0, .acquire 1, .acquire 2, .release 0 true, .acquire 2]

/-- The `Consume` calls the dispatcher has forwarded to shards, oldest first,
each with the shard it went to and the context, request and callback it
carried. -/
def forwards (tr : List (Event Ctx Req)) : List (ShardId × Ctx × Req × Handle) :=
  tr.filterMap fun e => match e with
    | .consume s ctx req done => some (s, ctx, req, done)
    | _ => none

/-- The context, request and callback of each `Consume` call among the given
calls, in order. -/
def consumeArgs (cs : List (Call Ctx Req Key)) : List (Ctx × Req × Handle) :=
  cs.filterMap fun c => match c with
    | .consume ctx req done => some (ctx, req, done)
    | _ => none

/-! ## `Start` and `Shutdown` against shard methods that may fail

The functions above describe runs in which every call of a shard's `start` or
`shutdown` returns.  What such a call does is decided in another file of the
package; here it is a parameter, so that `Start` and `Shutdown` can be stated
for whatever these calls do or report. -/

/-- Modelled from the spec: how one call of a shard's `start` or `shutdown`,
both defined in another file of the package, ends.  It returns, reporting an
error or nothing, or it panics, or it never returns. -/
inductive Outcome where
  | returns (report : Option Handle)
  | panics
  | blocks
deriving DecidableEq, Repr

/-- Modelled from the spec: what the shard methods `start` and `shutdown`,
defined in another file of the package, do when called.  The outcome may depend
on every call made before, on the shard and on the arguments. -/
structure ShardBehaviour (Ctx Req : Type) where
  start : List (Event Ctx Req) → ShardId → Ctx → Option Handle → Outcome
  shutdown : List (Event Ctx Req) → ShardId → Ctx → Outcome

/-- Every call of `start` and of `shutdown` returns, whatever it reports. -/
def ShardBehaviour.Returns (b : ShardBehaviour Ctx Req) : Prop :=
  (∀ tr s ctx host, ∃ r, b.start tr s ctx host = .returns r) ∧
  (∀ tr s ctx, ∃ r, b.shutdown tr s ctx = .returns r)

/-- The method `multiBatcher.Start` against shard methods that behave as `b`:
`none` when `Start` does not return.  The call `mb.singleShard.start(ctx, host)`
is a statement, so whatever it reports is dropped; a panic propagates to the
caller of `Start`, and `Start` waits for a call that never returns. -/
def StartWith (b : ShardBehaviour Ctx Req) (st : State Ctx Req Key) (ctx : Ctx)
    (host : Option Handle) : Option (State Ctx Req Key × Option Handle) :=
  match st.mb.singleShard with
  | some s =>
    match b.start st.trace s ctx host with
    | .returns _ => some (shardStart st s ctx host, none)
    | .panics => none
    | .blocks => none
  | none => some (st, none)

/-- The callback passed to `Range` in `Shutdown`, against shard methods that
behave as `b`, with the goroutine it starts run on the spot.  The accumulator
is `none` once a goroutine has panicked, which ends the program; a goroutine
whose `shutdown` never returns never reaches its `wg.Done()`. -/
def shutdownEachWith (b : ShardBehaviour Ctx Req) (ctx : Ctx) (_key : Key) (shard : ShardId)
    (a : Option (State Ctx Req Key × Nat)) : Option (State Ctx Req Key × Nat) × Bool :=
  match a with
  | none => (none, false)
  | some (st, wg) =>
    let wg := wg + 1
    match b.shutdown st.trace shard ctx with
    | .returns _ => (some (shardShutdown st shard ctx, wg - 1), true)
    | .panics => (none, false)
    | .blocks => (some (shardShutdown st shard ctx, wg), true)

/-- The method `multiBatcher.Shutdown` against shard methods that behave as `b`:
`none` when `Shutdown` does not return, because a `shutdown` call panicked or
because `wg.Wait()` waits for a goroutine that never finishes. -/
def ShutdownWith (b : ShardBehaviour Ctx Req) (st : State Ctx Req Key) (ctx : Ctx)
    (ord : SyncMap.RangeOrder Key) : Option (State Ctx Req Key × Option Handle) :=
  match st.mb.singleShard with
  | some s =>
    match b.shutdown st.trace s ctx with
    | .returns _ => some (shardShutdown st s ctx, none)
    | .panics => none
    | .blocks => none
  | none =>
    match SyncMap.Range ord (shutdownEachWith b ctx) st.mb.shards (some (st, 0)) with
    | none => none
    | some r => if r.2 = 0 then some (r.1, none) else none

/-- Shard methods that panic whenever they are called. -/
def panicky : ShardBehaviour Unit (Tenant × Nat) :=
  { start := fun _ _ _ _ => .panics, shutdown := fun _ _ _ => .panics }

/-- Shard methods whose `start` returns and whose `shutdown` never returns on
shard 1. -/
def stuck : ShardBehaviour Unit (Tenant × Nat) :=
  { start := fun _ _ _ _ => .returns none
    shutdown := fun _ s _ => if s = 1 then .blocks else .returns none }

/-- Shard methods that return and report the error 13 on every call. -/
def failing : ShardBehaviour Unit (Tenant × Nat) :=
  { start := fun _ _ _ _ => .returns (some 13), shutdown := fun _ _ _ => .returns (some 13) }

/-! # Theorems -/

/-! ## Basic facts about channels and the registry -/

theorem sendLoop_fill (k : Nat) (c : Chan) (h : c.len + k ≤ c.cap) :
    sendLoop k c = some ⟨c.cap, c.len + k⟩ := by
  induction k generalizing c with
  | zero => simp [sendLoop]
  | succ k ih =>
    have hlt : c.len < c.cap := by omega
    simp only [sendLoop, Chan.send, hlt, if_true, Option.some_bind]
    rw [ih _ (by simp; omega)]
    simp; omega

theorem newWorkerPool_pos (n : Int) (h : 0 < n) :
    newWorkerPool n = some (some ⟨n.toNat, n.toNat⟩) := by
  have h0 : n ≠ 0 := by omega
  have h1 : ¬ n < 0 := by omega
  simp [newWorkerPool, makeChan, h0, h1, sendLoop_fill n.toNat ⟨n.toNat, 0⟩ (by simp)]

theorem newWorkerPool_zero : newWorkerPool 0 = some none := by
  simp [newWorkerPool]

theorem newWorkerPool_neg (n : Int) (h : n < 0) : newWorkerPool n = none := by
  have h0 : n ≠ 0 := by omega
  simp [newWorkerPool, makeChan, h0, h]

namespace SyncMap

variable {Key : Type} [DecidableEq Key]

theorem Load_append (m : List (Key × ShardId)) (k key : Key) (v : ShardId) :
    Load (m ++ [(k, v)]) key =
      match Load m key with
      | some x => some x
      | none => if k = key then some v else none := by
  induction m with
  | nil => simp [Load]
  | cons e rest ih =>
    obtain ⟨k1, v1⟩ := e
    by_cases h : k1 = key
    · simp [Load, h]
    · simp [Load, h, ih]

theorem Load_eq_none_iff (m : List (Key × ShardId)) (key : Key) :
    Load m key = none ↔ key ∉ m.map Prod.fst := by
  induction m with
  | nil => simp [Load]
  | cons e rest ih =>
    obtain ⟨k1, v1⟩ := e
    by_cases h : k1 = key
    · simp [Load, h]
    · have h2 : ¬ key = k1 := fun e => h e.symm
      simp [Load, h, h2, ih]

theorem Load_mem (m : List (Key × ShardId)) (key : Key) (v : ShardId)
    (h : Load m key = some v) : (key, v) ∈ m := by
  induction m with
  | nil => simp [Load] at h
  | cons e rest ih =>
    obtain ⟨k1, v1⟩ := e
    by_cases hk : k1 = key
    · simp [Load, hk] at h
      simp [hk, h]
    · simp [Load, hk] at h
      exact List.mem_cons_of_mem _ (ih h)

end SyncMap

/-! ## The sequential methods in partitioned mode -/

theorem getShard_partitioned (st : State Ctx Req Key) (p : Ctx → Req → Key) (ctx : Ctx) (req : Req)
    (h1 : st.mb.singleShard = none) (h2 : st.mb.partitioner = some p) :
    getShard st ctx req = some
      (match SyncMap.Load st.mb.shards (p ctx req) with
       | some s => (s, st.log (.getKey ctx req))
       | none => (st.heap.length, publishFresh st (p ctx req) ctx req)) := by
  cases hl : SyncMap.Load st.mb.shards (p ctx req) with
  | some s => simp [getShard, h1, h2, State.log, hl]
  | none =>
    simp [getShard, h1, h2, State.log, hl, newShard, shardStart, SyncMap.LoadOrStore,
      State.setShards, publishFresh, ownCell]

theorem getShard_single (st : State Ctx Req Key) (s : ShardId) (ctx : Ctx) (req : Req)
    (h1 : st.mb.singleShard = some s) : getShard st ctx req = some (s, st) := by
  simp [getShard, h1]

theorem Consume_partitioned (st : State Ctx Req Key) (p : Ctx → Req → Key) (ctx : Ctx) (req : Req)
    (done : Handle) (h1 : st.mb.singleShard = none) (h2 : st.mb.partitioner = some p) :
    Consume st ctx req done = some
      (match SyncMap.Load st.mb.shards (p ctx req) with
       | some s => { st with trace := st.trace ++ [.getKey ctx req, .consume s ctx req done] }
       | none =>
         { publishFresh st (p ctx req) ctx req with
           trace := st.trace ++ [.getKey ctx req, .start st.heap.length ctx none,
             .consume st.heap.length ctx req done] }) := by
  rw [Consume, getShard_partitioned st p ctx req h1 h2]
  cases hl : SyncMap.Load st.mb.shards (p ctx req) with
  | some s => simp [shardConsume, State.log]
  | none => simp [shardConsume, State.log, publishFresh]

theorem rangeOver_shutdownEach (ctx : Ctx) (m : List (Key × ShardId)) (st : State Ctx Req Key)
    (n : Nat) :
    SyncMap.rangeOver (shutdownEach ctx) m (st, n) =
      ({ st with trace := st.trace ++ m.map fun e => Event.shutdown e.2 ctx }, n) := by
  induction m generalizing st with
  | nil => simp [SyncMap.rangeOver]
  | cons e rest ih =>
    obtain ⟨k, v⟩ := e
    simp [SyncMap.rangeOver, shutdownEach, shardShutdown, State.log, ih]

theorem Shutdown_partitioned (st : State Ctx Req Key) (ctx : Ctx) (ord : SyncMap.RangeOrder Key)
    (h1 : st.mb.singleShard = none) :
    Shutdown st ctx ord = some
      ({ st with trace := st.trace ++ (ord.visit st.mb.shards).map fun e => Event.shutdown e.2 ctx },
        none) := by
  simp [Shutdown, h1, SyncMap.Range, rangeOver_shutdownEach]

theorem Shutdown_single (st : State Ctx Req Key) (ctx : Ctx) (ord : SyncMap.RangeOrder Key)
    (s : ShardId) (h1 : st.mb.singleShard = some s) :
    Shutdown st ctx ord = some ({ st with trace := st.trace ++ [.shutdown s ctx] }, none) := by
  simp [Shutdown, h1, shardShutdown, State.log]

theorem Start_partitioned (st : State Ctx Req Key) (ctx : Ctx) (host : Option Handle)
    (h1 : st.mb.singleShard = none) : Start st ctx host = (st, none) := by
  simp [Start, h1]

theorem Start_single (st : State Ctx Req Key) (ctx : Ctx) (host : Option Handle) (s : ShardId)
    (h1 : st.mb.singleShard = some s) :
    Start st ctx host = ({ st with trace := st.trace ++ [.start s ctx host] }, none) := by
  simp [Start, h1, shardStart, State.log]

theorem startCount_shutdowns (ctx : Ctx) (m : List (Key × ShardId)) (s : ShardId) :
    startCount (m.map fun e => (Event.shutdown e.2 ctx : Event Ctx Req)) s = 0 := by
  induction m with
  | nil => simp [startCount]
  | cons e rest ih =>
    simp only [startCount] at ih
    simp [startCount, List.countP_cons, ih]

theorem SeqInv.consume {p : Ctx → Req → Key} {st st1 : State Ctx Req Key} (h : SeqInv p st)
    (ctx : Ctx) (req : Req) (done : Handle) (hc : Consume st ctx req done = some st1) :
    SeqInv p st1 := by
  rw [Consume_partitioned st p ctx req done h.single h.part] at hc
  cases hl : SyncMap.Load st.mb.shards (p ctx req) with
  | some s =>
    simp only [hl, Option.some.injEq] at hc
    subst hc
    refine ⟨h.single, h.part, h.keys, h.vals, h.cells, ?_, ?_, ?_⟩
    · intro s1
      simpa [startCount, List.countP_append, List.countP_cons] using h.starts s1
    · intro s1 ctx1 req1 done1 hm
      simp only [List.mem_append, List.mem_cons, List.mem_singleton] at hm
      simp at hm
      rcases hm with hm | ⟨rfl, rfl, rfl, rfl⟩
      · exact h.routed s1 ctx1 req1 done1 hm
      · exact hl
    · intro ctx1 req1 hm
      simp at hm
      rcases hm with hm | ⟨rfl, rfl⟩
      · exact h.asked ctx1 req1 hm
      · exact List.mem_map_of_mem Prod.fst (SyncMap.Load_mem _ _ _ hl)
  | none =>
    simp only [hl, Option.some.injEq] at hc
    subst hc
    have hk := (SyncMap.Load_eq_none_iff _ _).mp hl
    refine ⟨h.single, h.part, ?_, ?_, ?_, ?_, ?_, ?_⟩
    · simp only [publishFresh, List.map_append, List.map_cons, List.map_nil]
      exact List.Nodup.append h.keys (by simp) (by simpa using hk)
    · simp [publishFresh, h.vals, List.range_succ]
    · intro c hc
      simp only [publishFresh, List.mem_append, List.mem_singleton] at hc
      rcases hc with hc | hc
      · exact h.cells c hc
      · simp [hc, ownCell, publishFresh]
    · intro s1
      have := h.starts s1
      simp only [startCount] at this
      simp only [publishFresh, startCount, List.countP_append, List.countP_cons, List.countP_nil,
        List.length_append, List.length_singleton, this]
      by_cases e1 : s1 < st.heap.length
      · have e2 : ¬ st.heap.length = s1 := by omega
        have e3 : s1 < st.heap.length + 1 := by omega
        simp [e1, e2, e3]
      · by_cases e2 : st.heap.length = s1
        · subst e2
          simp
        · have e3 : ¬ s1 < st.heap.length + 1 := by omega
          simp [e1, e2, e3]
    · intro s1 ctx1 req1 done1 hm
      simp at hm
      simp only [publishFresh, SyncMap.Load_append]
      rcases hm with hm | ⟨rfl, rfl, rfl, rfl⟩
      · simp [h.routed s1 ctx1 req1 done1 hm]
      · simp [hl]
    · intro ctx1 req1 hm
      simp at hm
      simp only [publishFresh, List.map_append, List.mem_append, List.map_cons, List.map_nil,
        List.mem_singleton]
      rcases hm with hm | ⟨rfl, rfl⟩
      · exact Or.inl (h.asked ctx1 req1 hm)
      · exact Or.inr rfl

theorem mem_shutdowns_consume (ctx : Ctx) (m : List (Key × ShardId)) (s : ShardId) (ctx1 : Ctx)
    (req1 : Req) (done1 : Handle) :
    Event.consume s ctx1 req1 done1 ∉ m.map fun e => (Event.shutdown e.2 ctx : Event Ctx Req) := by
  simp

theorem mem_shutdowns_getKey (ctx : Ctx) (m : List (Key × ShardId)) (ctx1 : Ctx) (req1 : Req) :
    Event.getKey ctx1 req1 ∉ m.map fun e => (Event.shutdown e.2 ctx : Event Ctx Req) := by
  simp

theorem SeqInv.shutdown {p : Ctx → Req → Key} {st : State Ctx Req Key} (h : SeqInv p st)
    (ctx : Ctx) (m : List (Key × ShardId)) :
    SeqInv p { st with trace := st.trace ++ m.map fun e => Event.shutdown e.2 ctx } := by
  refine ⟨h.single, h.part, h.keys, h.vals, h.cells, ?_, ?_, ?_⟩
  · intro s1
    have e := @startCount_shutdowns Ctx Req Key _ ctx m s1
    have e2 := h.starts s1
    simp only [startCount] at e e2
    simp only [startCount, List.countP_append, e, e2, Nat.add_zero]
  · intro s1 ctx1 req1 done1 hm
    rcases List.mem_append.mp hm with hm | hm
    · exact h.routed s1 ctx1 req1 done1 hm
    · exact absurd hm (mem_shutdowns_consume ctx _ s1 ctx1 req1 done1)
  · intro ctx1 req1 hm
    rcases List.mem_append.mp hm with hm | hm
    · exact h.asked ctx1 req1 hm
    · exact absurd hm (mem_shutdowns_getKey ctx _ ctx1 req1)

theorem SeqInv.seq_call {p : Ctx → Req → Key} {st : State Ctx Req Key} (h : SeqInv p st)
    (c : Call Ctx Req Key) :
    ∃ st1, runCall st c = some st1 ∧ SeqInv p st1 ∧ SameConfig st st1 ∧
      (∀ (K : Key) (s : Nat), SyncMap.Load st.mb.shards K = some s →
        SyncMap.Load st1.mb.shards K = some s) ∧
      (∃ more, st1.trace = st.trace ++ more) ∧ st.heap.length ≤ st1.heap.length := by
  cases c with
  | start ctx host =>
    refine ⟨st, ?_, h, ?_, fun _ _ e => e, ⟨[], by simp⟩, le_refl _⟩
    · simp [runCall, Start_partitioned st ctx host h.single]
    · simp [SameConfig]
  | shutdown ctx ord =>
    refine ⟨_, ?_, h.shutdown ctx (ord.visit st.mb.shards), ?_, fun _ _ e => e, ⟨_, rfl⟩,
      le_refl _⟩
    · simp [runCall, Shutdown_partitioned st ctx ord h.single]
    · simp [SameConfig]
  | consume ctx req done =>
    have hc := Consume_partitioned st p ctx req done h.single h.part
    refine ⟨_, hc, h.consume ctx req done hc, ?_, ?_, ?_, ?_⟩
    · cases hl : SyncMap.Load st.mb.shards (p ctx req) <;> simp [SameConfig, publishFresh]
    · intro K s hK
      cases hl : SyncMap.Load st.mb.shards (p ctx req) with
      | some s2 => simpa using hK
      | none => simp [publishFresh, SyncMap.Load_append, hK]
    · cases hl : SyncMap.Load st.mb.shards (p ctx req) with
      | some s2 => exact ⟨_, rfl⟩
      | none => exact ⟨_, rfl⟩
    · cases hl : SyncMap.Load st.mb.shards (p ctx req) with
      | some s2 => simp
      | none => simp [publishFresh]

theorem SameConfig.trans {a b c : State Ctx Req Key} (h1 : SameConfig a b) (h2 : SameConfig b c) :
    SameConfig a c := by
  obtain ⟨a1, a2, a3, a4, a5, a6, a7, a8⟩ := h1
  obtain ⟨b1, b2, b3, b4, b5, b6, b7, b8⟩ := h2
  exact ⟨b1.trans a1, b2.trans a2, b3.trans a3, b4.trans a4, b5.trans a5, b6.trans a6,
    b7.trans a7, b8.trans a8⟩

theorem SeqInv.seq_calls {p : Ctx → Req → Key} (cs : List (Call Ctx Req Key)) :
    ∀ {st : State Ctx Req Key}, SeqInv p st →
    ∃ st1, runCalls cs st = some st1 ∧ SeqInv p st1 ∧ SameConfig st st1 ∧
      (∀ (K : Key) (s : Nat), SyncMap.Load st.mb.shards K = some s →
        SyncMap.Load st1.mb.shards K = some s) ∧
      (∃ more, st1.trace = st.trace ++ more) ∧ st.heap.length ≤ st1.heap.length := by
  induction cs with
  | nil =>
    intro st h
    exact ⟨st, rfl, h, by simp [SameConfig], fun _ _ e => e, ⟨[], by simp⟩, le_refl _⟩
  | cons c cs ih =>
    intro st h
    obtain ⟨st1, e1, i1, c1, m1, ⟨t1, ht1⟩, l1⟩ := h.seq_call c
    obtain ⟨st2, e2, i2, c2, m2, ⟨t2, ht2⟩, l2⟩ := ih i1
    refine ⟨st2, ?_, i2, c1.trans c2, fun K s e => m2 K s (m1 K s e), ⟨t1 ++ t2, ?_⟩,
      le_trans l1 l2⟩
    · simp [runCalls, e1, e2]
    · rw [ht2, ht1, List.append_assoc]

theorem runCalls_append (cs1 cs2 : List (Call Ctx Req Key)) (st : State Ctx Req Key) :
    runCalls (cs1 ++ cs2) st = (runCalls cs1 st).bind (runCalls cs2) := by
  induction cs1 generalizing st with
  | nil => simp [runCalls]
  | cons c cs ih =>
    cases h : runCall st c with
    | none => simp [runCalls, h]
    | some st1 => simp [runCalls, h, ih]

theorem newMultiBatcher_partitioned (bCfg : BatchConfig) (bSet : batcherSettings Ctx Req Key)
    (p : Ctx → Req → Key) (hp : bSet.partitioner = some p) (hw : 0 ≤ bSet.maxWorkers) :
    ∃ st, newMultiBatcher bCfg bSet = some st ∧ SeqInv p st ∧ st.heap = [] ∧ st.trace = [] ∧
      st.mb.shards = [] ∧ st.mb.cfg = bCfg ∧ st.mb.sizerType = bSet.sizerType ∧
      st.mb.sizer = bSet.sizer ∧ st.mb.consumeFunc = bSet.next := by
  have hpool : ∃ pool, newWorkerPool bSet.maxWorkers = some pool := by
    rcases lt_or_eq_of_le hw with h | h
    · exact ⟨_, newWorkerPool_pos _ h⟩
    · exact ⟨none, by rw [← h]; exact newWorkerPool_zero⟩
  obtain ⟨pool, hpool⟩ := hpool
  refine ⟨_, by simp only [newMultiBatcher, hpool, hp, Option.map_some']; rfl, ?_, rfl, rfl, rfl, rfl, rfl,
    rfl, rfl⟩
  refine ⟨rfl, rfl, by simp, by simp, by simp, ?_, by simp, by simp⟩
  intro s
  simp [startCount]

theorem startCount_append (a b : List (Event Ctx Req)) (s : ShardId) :
    startCount (a ++ b) s = startCount a s + startCount b s := by
  simp [startCount, List.countP_append]

theorem SeqInv.after_consumes {p : Ctx → Req → Key} (reqs : List (Ctx × Req × Handle)) :
    ∀ {st : State Ctx Req Key}, SeqInv p st →
    ∃ st1, runCalls (consumeCalls reqs) st = some st1 ∧ SeqInv p st1 ∧
      (∀ s : Nat, shutdownCount st1.trace s = shutdownCount st.trace s) ∧
      (∀ K : Key, K ∈ st1.mb.shards.map Prod.fst ↔
        K ∈ st.mb.shards.map Prod.fst ∨ K ∈ keysOf p reqs) := by
  induction reqs with
  | nil =>
    intro st h
    exact ⟨st, rfl, h, fun _ => rfl, fun K => by simp [keysOf]⟩
  | cons r rest ih =>
    intro st h
    obtain ⟨ctx, req, done⟩ := r
    have hc := Consume_partitioned st p ctx req done h.single h.part
    have i1 := h.consume ctx req done hc
    obtain ⟨st2, e2, i2, s2, k2⟩ := ih i1
    refine ⟨st2, ?_, i2, ?_, ?_⟩
    · simp only [consumeCalls, List.map_cons, runCalls, runCall, hc, Option.some_bind]
      exact e2
    · intro s
      rw [s2 s]
      cases hl : SyncMap.Load st.mb.shards (p ctx req) <;>
        simp [shutdownCount, List.countP_append, List.countP_cons]
    · intro K
      rw [k2 K]
      cases hl : SyncMap.Load st.mb.shards (p ctx req) with
      | some s =>
        have hm : p ctx req ∈ st.mb.shards.map Prod.fst :=
          List.mem_map_of_mem Prod.fst (SyncMap.Load_mem _ _ _ hl)
        simp only [keysOf, List.map_cons, List.mem_cons]
        constructor
        · rintro (h1 | h1)
          · exact Or.inl h1
          · exact Or.inr (Or.inr h1)
        · rintro (h1 | h1 | h1)
          · exact Or.inl h1
          · exact Or.inl (h1 ▸ hm)
          · exact Or.inr h1
      | none =>
        simp only [publishFresh, keysOf, List.map_cons, List.mem_cons, List.map_append,
          List.mem_append, List.map_nil, List.mem_singleton]
        tauto

/-! ## C1: key stability -/

theorem forwards_append (a b : List (Event Ctx Req)) :
    forwards (a ++ b) = forwards a ++ forwards b := by
  simp [forwards, List.filterMap_append]

theorem forwards_shutdowns (ctx : Ctx) (m : List (Key × ShardId)) :
    forwards (m.map fun e => (Event.shutdown e.2 ctx : Event Ctx Req)) = [] := by
  induction m with
  | nil => rfl
  | cons e rest ih =>
    simp only [forwards] at ih
    simp [forwards, List.filterMap_cons, ih]

theorem mem_forwards (tr : List (Event Ctx Req)) (s : ShardId) (ctx : Ctx) (req : Req)
    (done : Handle) : (s, ctx, req, done) ∈ forwards tr ↔ Event.consume s ctx req done ∈ tr := by
  simp only [forwards, List.mem_filterMap]
  constructor
  · rintro ⟨e, he, h⟩
    cases e <;> simp at h
    obtain ⟨rfl, rfl, rfl, rfl⟩ := h
    exact he
  · intro h
    exact ⟨_, h, rfl⟩

theorem SeqInv.forwards_call {p : Ctx → Req → Key} {st st1 : State Ctx Req Key}
    (h : SeqInv p st) (c : Call Ctx Req Key) (hc : runCall st c = some st1) :
    (forwards st1.trace).map Prod.snd = (forwards st.trace).map Prod.snd ++ consumeArgs [c] := by
  cases c with
  | start ctx host =>
    simp only [runCall, Start_partitioned st ctx host h.single, Option.some.injEq] at hc
    subst hc
    simp [consumeArgs]
  | shutdown ctx ord =>
    simp only [runCall, Shutdown_partitioned st ctx ord h.single, Option.map_some',
      Option.some.injEq] at hc
    subst hc
    simp [consumeArgs, forwards_append, forwards_shutdowns]
  | consume ctx req done =>
    simp only [runCall, Consume_partitioned st p ctx req done h.single h.part] at hc
    cases hl : SyncMap.Load st.mb.shards (p ctx req) with
    | some v =>
      simp only [hl, Option.some.injEq] at hc
      subst hc
      simp [consumeArgs, forwards_append, forwards]
    | none =>
      simp only [hl, Option.some.injEq] at hc
      subst hc
      simp [consumeArgs, forwards_append, forwards]

theorem SeqInv.forwards_calls {p : Ctx → Req → Key} (cs : List (Call Ctx Req Key)) :
    ∀ {st st1 : State Ctx Req Key}, SeqInv p st → runCalls cs st = some st1 →
      (forwards st1.trace).map Prod.snd = (forwards st.trace).map Prod.snd ++ consumeArgs cs := by
  induction cs with
  | nil =>
    intro st st1 _ hc
    simp only [runCalls, Option.some.injEq] at hc
    subst hc
    simp [consumeArgs]
  | cons c cs ih =>
    intro st st1 h hc
    obtain ⟨st2, e2, i2, -⟩ := h.seq_call c
    simp only [runCalls, e2, Option.some_bind] at hc
    rw [ih i2 hc, h.forwards_call c e2, List.append_assoc]
    congr 1
    simp [consumeArgs, List.filterMap_cons]
    cases c <;> simp

/-- C1. In partitioned mode, any sequence of `Start`/`Consume`/`Shutdown` calls
on a freshly constructed dispatcher runs to completion, and afterwards: the
`Consume` calls forwarded to shards are exactly the `Consume` calls made, one
forward per call, in call order, each carrying the context, request and
callback of its call; every forward went to the shard registered under the
partition key of its request, which is also the shard `getShard` returns for
that request from now on; so two calls with equal keys were forwarded to the
same shard; every registry entry present after a prefix of the calls is still
present, with the same shard, after the whole sequence; and `getShard` on any
request whose key was registered after the prefix returns that same shard. -/
theorem key_stability (bCfg : BatchConfig) (bSet : batcherSettings Ctx Req Key)
    (p : Ctx → Req → Key) (hp : bSet.partitioner = some p) (hw : 0 ≤ bSet.maxWorkers)
    (cs1 cs2 : List (Call Ctx Req Key)) :
    ∃ st0 st1 st2, newMultiBatcher bCfg bSet = some st0 ∧ runCalls cs1 st0 = some st1 ∧
      runCalls cs2 st1 = some st2 ∧ runCalls (cs1 ++ cs2) st0 = some st2 ∧
      (forwards st2.trace).map Prod.snd = consumeArgs (cs1 ++ cs2) ∧
      (∀ (s : Nat) ctx req done, (s, ctx, req, done) ∈ forwards st2.trace →
        SyncMap.Load st2.mb.shards (p ctx req) = some s ∧
        (getShard st2 ctx req).map Prod.fst = some s) ∧
      (∀ (s : Nat) ctx req done, Event.consume s ctx req done ∈ st2.trace →
        SyncMap.Load st2.mb.shards (p ctx req) = some s) ∧
      (∀ (s t : Nat) ctx req done ctx1 req1 done1,
        Event.consume s ctx req done ∈ st2.trace → Event.consume t ctx1 req1 done1 ∈ st2.trace →
        p ctx req = p ctx1 req1 → s = t) ∧
      (∀ (K : Key) (s : Nat), SyncMap.Load st1.mb.shards K = some s →
        SyncMap.Load st2.mb.shards K = some s) ∧
      (∀ ctx req (s : Nat), SyncMap.Load st1.mb.shards (p ctx req) = some s →
        (getShard st2 ctx req).map Prod.fst = some s) := by
  obtain ⟨st0, e0, i0, -, ht0, -⟩ := newMultiBatcher_partitioned bCfg bSet p hp hw
  obtain ⟨st1, e1, i1, -, -, -, -⟩ := i0.seq_calls cs1
  obtain ⟨st2, e2, i2, -, m2, -, -⟩ := i1.seq_calls cs2
  have e12 : runCalls (cs1 ++ cs2) st0 = some st2 := by
    rw [runCalls_append, e1]
    exact e2
  have hget : ∀ ctx req (s : Nat), SyncMap.Load st2.mb.shards (p ctx req) = some s →
      (getShard st2 ctx req).map Prod.fst = some s := by
    intro ctx req s hl
    rw [getShard_partitioned st2 p ctx req i2.single i2.part, hl]
    rfl
  refine ⟨st0, st1, st2, e0, e1, e2, e12, ?_, ?_, i2.routed, ?_, m2, ?_⟩
  · have := i0.forwards_calls (cs1 ++ cs2) e12
    simpa [ht0, forwards] using this
  · intro s ctx req done hm
    have hl := i2.routed s ctx req done ((mem_forwards _ _ _ _ _).mp hm)
    exact ⟨hl, hget ctx req s hl⟩
  · intro s t ctx req done ctx1 req1 done1 h1 h2 hk
    have a := i2.routed s ctx req done h1
    have b := i2.routed t ctx1 req1 done1 h2
    rw [hk, b] at a
    exact (Option.some.inj a).symm
  · intro ctx req s hl
    exact hget ctx req s (m2 _ _ hl)

/-! ## C4: one shard per distinct key -/

/-- C4. When a freshly constructed partitioned dispatcher consumes a finite list
of requests one after another, the run completes, and afterwards the number of
registered shards and the number of shards constructed both equal the number
of distinct partition keys among the requests; each constructed shard was
started exactly once, and no shard was shut down. -/
theorem shard_count_eq_distinct_keys (bCfg : BatchConfig) (bSet : batcherSettings Ctx Req Key)
    (p : Ctx → Req → Key) (hp : bSet.partitioner = some p) (hw : 0 ≤ bSet.maxWorkers)
    (reqs : List (Ctx × Req × Handle)) :
    ∃ st0 st, newMultiBatcher bCfg bSet = some st0 ∧
      runCalls (consumeCalls reqs) st0 = some st ∧
      st.mb.shards.length = (keysOf p reqs).dedup.length ∧
      st.heap.length = (keysOf p reqs).dedup.length ∧
      st.mb.shards.map Prod.snd = List.range st.heap.length ∧
      (∀ s : Nat, s < st.heap.length → startCount st.trace s = 1) ∧
      (∀ s : Nat, ¬ s < st.heap.length → startCount st.trace s = 0) ∧
      (∀ s : Nat, shutdownCount st.trace s = 0) := by
  obtain ⟨st0, e0, i0, -, ht, hs, -⟩ := newMultiBatcher_partitioned bCfg bSet p hp hw
  obtain ⟨st, e1, i1, s1, k1⟩ := i0.after_consumes reqs
  have hlen : (st.mb.shards.map Prod.fst).length = (keysOf p reqs).dedup.length := by
    apply List.Perm.length_eq
    rw [List.perm_ext_iff_of_nodup i1.keys (List.nodup_dedup _)]
    intro K
    rw [k1 K, hs, List.mem_dedup]
    simp
  have hv := congrArg List.length i1.vals
  simp only [List.length_map, List.length_range] at hv hlen
  refine ⟨st0, st, e0, e1, hlen, by omega, i1.vals, ?_, ?_, ?_⟩
  · intro s hlt
    simp [i1.starts s, hlt]
  · intro s hlt
    simp [i1.starts s, hlt]
  · intro s
    rw [s1 s, ht]
    simp [shutdownCount]

/-- Witness for C1: two requests, of tenants A and B, then a shutdown whose
`Range` visits B before A, then requests of tenants A, B and C.  All five
requests were forwarded, those of tenant A to shard 0 and those of tenant B to
shard 1, also after the shutdown. -/
theorem key_stability_witness :
    ∃ st0 st1 st2, newMultiBatcher 7 tenantSettings = some st0 ∧
      runCalls (consumeCalls (tenantRequests.take 2)) st0 = some st1 ∧
      runCalls (Call.shutdown () .reversed :: consumeCalls (tenantRequests.drop 2)) st1
        = some st2 ∧
      (forwards st2.trace).map Prod.snd = tenantRequests ∧
      forwards st2.trace =
        [(0, (), (.A, 10), 100), (1, (), (.B, 11), 101), (0, (), (.A, 12), 102),
         (1, (), (.B, 13), 103), (2, (), (.C, 14), 104)] ∧
      SyncMap.Load st1.mb.shards Tenant.A = some 0 ∧
      SyncMap.Load st2.mb.shards Tenant.A = some 0 ∧
      (∀ (s : Nat) ctx req done, (s, ctx, req, done) ∈ forwards st2.trace →
        SyncMap.Load st2.mb.shards (tenantOf ctx req) = some s ∧
        (getShard st2 ctx req).map Prod.fst = some s) := by
  obtain ⟨st0, st1, st2, e0, e1, e2, -, hf, hr, -, -, h3, -⟩ :=
    key_stability 7 tenantSettings tenantOf rfl (by decide)
      (consumeCalls (tenantRequests.take 2))
      (Call.shutdown () .reversed :: consumeCalls (tenantRequests.drop 2))
  have e0c : newMultiBatcher 7 tenantSettings = some tenantState := rfl
  rw [e0c] at e0
  cases (Option.some.inj e0)
  have e1c := Option.some.inj (e1.symm.trans
    (by rfl : runCalls (consumeCalls (tenantRequests.take 2)) tenantState = some _))
  have a1 : SyncMap.Load st1.mb.shards Tenant.A = some 0 := by
    rw [e1c]
    rfl
  have e2c := Option.some.inj (e2.symm.trans
    (by rw [e1c]; rfl : runCalls (Call.shutdown () .reversed ::
      consumeCalls (tenantRequests.drop 2)) st1 = some _))
  have hfw : forwards st2.trace =
      [(0, (), (.A, 10), 100), (1, (), (.B, 11), 101), (0, (), (.A, 12), 102),
       (1, (), (.B, 13), 103), (2, (), (.C, 14), 104)] := by
    rw [e2c]
    rfl
  exact ⟨tenantState, st1, st2, e0c, e1, e2, hf, hfw, a1, h3 _ _ a1, hr⟩

/-- Witness for C4: the tenants A, B, A, B, C give exactly three shards. -/
theorem shard_count_eq_distinct_keys_witness :
    ∃ st0 st, newMultiBatcher 7 tenantSettings = some st0 ∧
      runCalls (consumeCalls tenantRequests) st0 = some st ∧
      st.mb.shards.length = 3 ∧ st.heap.length = 3 ∧
      st.mb.shards.map Prod.snd = List.range st.heap.length ∧
      (∀ s : Nat, s < st.heap.length → startCount st.trace s = 1) ∧
      (∀ s : Nat, ¬ s < st.heap.length → startCount st.trace s = 0) ∧
      (∀ s : Nat, shutdownCount st.trace s = 0) := by
  have h := shard_count_eq_distinct_keys 7 tenantSettings tenantOf rfl (by decide) tenantRequests
  have hd : (keysOf tenantOf tenantRequests).dedup.length = 3 := by decide
  rw [hd] at h
  exact h

/-! ## The sequential methods in unpartitioned mode -/

theorem newMultiBatcher_single (bCfg : BatchConfig) (bSet : batcherSettings Ctx Req Key)
    (hp : bSet.partitioner = none) (hw : 0 ≤ bSet.maxWorkers) :
    ∃ st, newMultiBatcher bCfg bSet = some st ∧ SingleInv st ∧ st.trace = [] ∧
      st.mb.cfg = bCfg ∧ st.mb.sizerType = bSet.sizerType ∧
      st.mb.sizer = bSet.sizer ∧ st.mb.consumeFunc = bSet.next := by
  have hpool : ∃ pool, newWorkerPool bSet.maxWorkers = some pool := by
    rcases lt_or_eq_of_le hw with h | h
    · exact ⟨_, newWorkerPool_pos _ h⟩
    · exact ⟨none, by rw [← h]; exact newWorkerPool_zero⟩
  obtain ⟨pool, hpool⟩ := hpool
  refine ⟨_, by simp only [newMultiBatcher, hpool, hp, Option.map_some']; rfl, ?_, rfl, rfl, rfl,
    rfl, rfl⟩
  exact ⟨rfl, rfl, rfl, rfl, by simp [newShard, getKeyCount], by simp [newShard]⟩

theorem SingleInv.single_call {st : State Ctx Req Key} (h : SingleInv st) (c : Call Ctx Req Key) :
    ∃ st1, runCall st c = some st1 ∧ SingleInv st1 ∧ SameConfig st st1 := by
  cases c with
  | start ctx host =>
    refine ⟨{ st with trace := st.trace ++ [.start 0 ctx host] },
      by simp [runCall, Start_single st ctx host 0 h.single], ?_, by simp [SameConfig]⟩
    refine ⟨h.single, h.part, h.heap, h.shards, ?_, ?_⟩
    · have := h.asked
      simp only [getKeyCount] at this
      simp [getKeyCount, List.countP_append, this]
    · intro s ctx1 req1 done1 hm
      simp at hm
      exact h.routed s ctx1 req1 done1 hm
  | shutdown ctx ord =>
    refine ⟨{ st with trace := st.trace ++ [.shutdown 0 ctx] },
      by simp [runCall, Shutdown_single st ctx ord 0 h.single], ?_, by simp [SameConfig]⟩
    refine ⟨h.single, h.part, h.heap, h.shards, ?_, ?_⟩
    · have := h.asked
      simp only [getKeyCount] at this
      simp [getKeyCount, List.countP_append, this]
    · intro s ctx1 req1 done1 hm
      simp at hm
      exact h.routed s ctx1 req1 done1 hm
  | consume ctx req done =>
    refine ⟨{ st with trace := st.trace ++ [.consume 0 ctx req done] }, ?_, ?_,
      by simp [SameConfig]⟩
    · simp [runCall, Consume, getShard_single st 0 ctx req h.single, shardConsume, State.log]
    · refine ⟨h.single, h.part, h.heap, h.shards, ?_, ?_⟩
      · have := h.asked
        simp only [getKeyCount] at this
        simp [getKeyCount, List.countP_append, this]
      · intro s ctx1 req1 done1 hm
        simp at hm
        rcases hm with hm | ⟨rfl, -⟩
        · exact h.routed s ctx1 req1 done1 hm
        · rfl

theorem SingleInv.single_calls (cs : List (Call Ctx Req Key)) :
    ∀ {st : State Ctx Req Key}, SingleInv st →
    ∃ st1, runCalls cs st = some st1 ∧ SingleInv st1 ∧ SameConfig st st1 := by
  induction cs with
  | nil =>
    intro st h
    exact ⟨st, rfl, h, by simp [SameConfig]⟩
  | cons c cs ih =>
    intro st h
    obtain ⟨st1, e1, i1, c1⟩ := h.single_call c
    obtain ⟨st2, e2, i2, c2⟩ := ih i1
    exact ⟨st2, by simp [runCalls, e1, e2], i2, c1.trans c2⟩

/-! ## C5: unpartitioned mode -/

/-- C5. A dispatcher constructed with a nil partitioner (and a non-negative
`maxWorkers`, without which construction panics) has constructed exactly one
shard and started none.  Any sequence of `Start`/`Consume`/`Shutdown` calls
runs to completion, and afterwards there is still exactly that one shard, the
registry is empty, `GetKey` was never called, every `Consume` was forwarded to
the single shard, `getShard` returns the single shard and leaves the state
untouched, `Start` makes exactly one `start` call on it and `Shutdown` exactly
one `shutdown` call on it. -/
theorem unpartitioned_mode (bCfg : BatchConfig) (bSet : batcherSettings Ctx Req Key)
    (hp : bSet.partitioner = none) (hw : 0 ≤ bSet.maxWorkers) (cs : List (Call Ctx Req Key)) :
    ∃ st0 st, newMultiBatcher bCfg bSet = some st0 ∧
      st0.heap.length = 1 ∧ st0.mb.singleShard = some 0 ∧ st0.trace = [] ∧
      runCalls cs st0 = some st ∧
      st.heap = st0.heap ∧ st.mb.singleShard = some 0 ∧ st.mb.partitioner = none ∧
      st.mb.shards = [] ∧ getKeyCount st.trace = 0 ∧
      (∀ (s : Nat) ctx req done, Event.consume s ctx req done ∈ st.trace → s = 0) ∧
      (∀ ctx req, getShard st ctx req = some (0, st)) ∧
      (∀ ctx host, Start st ctx host =
        ({ st with trace := st.trace ++ [.start 0 ctx host] }, none)) ∧
      (∀ ctx ord, Shutdown st ctx ord =
        some ({ st with trace := st.trace ++ [.shutdown 0 ctx] }, none)) := by
  obtain ⟨st0, e0, i0, ht, -⟩ := newMultiBatcher_single bCfg bSet hp hw
  obtain ⟨st, e1, i1, c1⟩ := i0.single_calls cs
  obtain ⟨a1, a2, a3, a4, a5, a6, a7, a8⟩ := c1
  refine ⟨st0, st, e0, by simp [i0.heap], i0.single, ht, e1, ?_, i1.single, i1.part, i1.shards,
    i1.asked, i1.routed, ?_, ?_, ?_⟩
  · rw [i1.heap, i0.heap]
    simp [ownCell, a1, a2, a3, a4, a6]
  · intro ctx req
    exact getShard_single st 0 ctx req i1.single
  · intro ctx host
    exact Start_single st ctx host 0 i1.single
  · intro ctx ord
    exact Shutdown_single st ctx ord 0 i1.single

/-- Witness for C5: an unpartitioned dispatcher that is started, consumes the
five tenant requests and is shut down. -/
theorem unpartitioned_mode_witness :
    ∃ st0 st, newMultiBatcher 7 plainSettings = some st0 ∧
      st0.heap.length = 1 ∧ st0.mb.singleShard = some 0 ∧ st0.trace = [] ∧
      runCalls (Call.start () none :: consumeCalls tenantRequests ++ [Call.shutdown () SyncMap.RangeOrder.stored]) st0
        = some st ∧
      st.heap = st0.heap ∧ st.mb.shards = [] ∧ getKeyCount st.trace = 0 := by
  obtain ⟨st0, st, e0, a1, a2, a3, e1, a4, -, -, a5, a6, -⟩ :=
    unpartitioned_mode 7 plainSettings rfl (by decide)
      (Call.start () none :: consumeCalls tenantRequests ++ [Call.shutdown () SyncMap.RangeOrder.stored])
  exact ⟨st0, st, e0, a1, a2, a3, e1, a4, a5, a6⟩

/-! ## C7: `Start` and `Shutdown` report no error -/

theorem rangeOver_shutdownEachWith (b : ShardBehaviour Ctx Req) (hb : b.Returns) (ctx : Ctx)
    (m : List (Key × ShardId)) (st : State Ctx Req Key) (n : Nat) :
    SyncMap.rangeOver (shutdownEachWith b ctx) m (some (st, n)) =
      some ({ st with trace := st.trace ++ m.map fun e => Event.shutdown e.2 ctx }, n) := by
  induction m generalizing st with
  | nil => simp [SyncMap.rangeOver]
  | cons e rest ih =>
    obtain ⟨k, v⟩ := e
    obtain ⟨r, hr⟩ := hb.2 st.trace v ctx
    simp [SyncMap.rangeOver, shutdownEachWith, hr, shardShutdown, State.log, ih]

theorem failing_returns : failing.Returns :=
  ⟨fun _ _ _ _ => ⟨_, rfl⟩, fun _ _ _ => ⟨_, rfl⟩⟩

/-- C7, refuted as stated.  When the shard methods panic, `Start` on an
unpartitioned dispatcher does not return, and neither does `Shutdown`, on an
unpartitioned dispatcher or on a partitioned one with three shards; when the
`shutdown` of one of the three shards never returns, `Shutdown` does not
return either.  So `Start` and `Shutdown` do not return nil whatever the shard
operations do. -/
theorem failing_shard_stops_start_and_shutdown :
    StartWith panicky plainState () none = none ∧
    ShutdownWith panicky plainState () .stored = none ∧
    ShutdownWith panicky tenantStateABC () .stored = none ∧
    ShutdownWith stuck tenantStateABC () .stored = none :=
  ⟨rfl, rfl, rfl, rfl⟩

/-- C7, amended.  In every state of the dispatcher, partitioned or not, for
whatever the shard methods `start` and `shutdown` do or report and for every
order in which `Range` visits the registry: if `Start` returns, it returns a
nil error, and if `Shutdown` returns, it returns a nil error; `Start` fails to
return exactly when the `start` call it makes on the single shard does not
return; and when the shard methods return, whatever they report, `Start` and
`Shutdown` both return, with a nil error and with the effect the embedding
without failures gives them. -/
theorem start_shutdown_surface_no_error (b : ShardBehaviour Ctx Req) (st : State Ctx Req Key)
    (ctx : Ctx) (host : Option Handle) (ord : SyncMap.RangeOrder Key) :
    (∀ r, StartWith b st ctx host = some r → r.2 = none) ∧
    (∀ r, ShutdownWith b st ctx ord = some r → r.2 = none) ∧
    (StartWith b st ctx host = none ↔
      ∃ s, st.mb.singleShard = some s ∧ ∀ r, b.start st.trace s ctx host ≠ .returns r) ∧
    (b.Returns →
      StartWith b st ctx host = some (Start st ctx host) ∧ (Start st ctx host).2 = none ∧
      ShutdownWith b st ctx ord = Shutdown st ctx ord ∧
      ∃ st1, ShutdownWith b st ctx ord = some (st1, none)) := by
  refine ⟨?_, ?_, ?_, ?_⟩
  · intro r hr
    cases h : st.mb.singleShard with
    | none =>
      simp only [StartWith, h, Option.some.injEq] at hr
      rw [← hr]
    | some s =>
      simp only [StartWith, h] at hr
      cases ho : b.start st.trace s ctx host <;> simp only [ho] at hr
      · simp only [Option.some.injEq] at hr
        rw [← hr]
      · cases hr
      · cases hr
  · intro r hr
    cases h : st.mb.singleShard with
    | some s =>
      simp only [ShutdownWith, h] at hr
      cases ho : b.shutdown st.trace s ctx <;> simp only [ho] at hr
      · simp only [Option.some.injEq] at hr
        rw [← hr]
      · cases hr
      · cases hr
    | none =>
      simp only [ShutdownWith, h] at hr
      cases hm : SyncMap.Range ord (shutdownEachWith b ctx) st.mb.shards (some (st, 0)) with
      | none => simp [hm] at hr
      | some a =>
        simp only [hm] at hr
        split at hr
        · simp only [Option.some.injEq] at hr
          rw [← hr]
        · cases hr
  · cases h : st.mb.singleShard with
    | none => simp [StartWith, h]
    | some s =>
      cases ho : b.start st.trace s ctx host <;> simp [StartWith, h, ho]
  · intro hb
    cases h : st.mb.singleShard with
    | none =>
      have e : ShutdownWith b st ctx ord = Shutdown st ctx ord := by
        rw [Shutdown_partitioned st ctx ord h]
        simp [ShutdownWith, h, SyncMap.Range, rangeOver_shutdownEachWith b hb]
      refine ⟨by simp [StartWith, Start, h], by simp [Start, h], e, ?_⟩
      rw [e]
      exact ⟨_, Shutdown_partitioned st ctx ord h⟩
    | some s =>
      obtain ⟨r1, h1⟩ := hb.1 st.trace s ctx host
      obtain ⟨r2, h2⟩ := hb.2 st.trace s ctx
      have e : ShutdownWith b st ctx ord = Shutdown st ctx ord := by
        simp [ShutdownWith, Shutdown, h, h2]
      refine ⟨by simp [StartWith, Start, h, h1], by simp [Start, h], e, ?_⟩
      rw [e]
      exact ⟨_, Shutdown_single st ctx ord s h⟩

/-- Witness for C7: shard methods that report an error on every call.  `Start`
on the unpartitioned dispatcher and `Shutdown` on the partitioned one with
three shards still return nil. -/
theorem start_shutdown_surface_no_error_witness :
    failing.Returns ∧
    (∃ st1, StartWith failing plainState () none = some (st1, none) ∧
      startCount st1.trace 0 = 1) ∧
    (∃ st1, ShutdownWith failing tenantStateABC () .reversed = some (st1, none)) := by
  have h1 := (start_shutdown_surface_no_error failing plainState () none .stored).2.2.2
    failing_returns
  have h2 := (start_shutdown_surface_no_error failing tenantStateABC () none .reversed).2.2.2
    failing_returns
  refine ⟨failing_returns, ⟨(Start plainState () none).1, ?_, by decide⟩, h2.2.2.2⟩
  rw [h1.1]
  rfl

/-! ## C8: construction and sharing of the worker pool -/

theorem newMultiBatcher_pool (bCfg : BatchConfig) (bSet : batcherSettings Ctx Req Key)
    (pool : Option Chan) (h : newWorkerPool bSet.maxWorkers = some pool) :
    ∃ st, newMultiBatcher bCfg bSet = some st ∧ st.chans = pool.toList ∧
      st.mb.wp = pool.map fun _ => 0 := by
  cases hp : bSet.partitioner with
  | none => exact ⟨_, by simp only [newMultiBatcher, h, hp, Option.map_some']; rfl, rfl, rfl⟩
  | some p => exact ⟨_, by simp only [newMultiBatcher, h, hp, Option.map_some']; rfl, rfl, rfl⟩

theorem cells_after_calls (bCfg : BatchConfig) (bSet : batcherSettings Ctx Req Key)
    (hw : 0 ≤ bSet.maxWorkers) (cs : List (Call Ctx Req Key)) :
    ∃ st0 st, newMultiBatcher bCfg bSet = some st0 ∧ runCalls cs st0 = some st ∧
      st.mb.wp = st0.mb.wp ∧ st.chans = st0.chans ∧
      (bSet.partitioner = none → st.heap.length = 1) ∧
      ∀ c ∈ st.heap, c = ⟨bCfg, bSet.sizerType, bSet.sizer, st0.mb.wp, bSet.next⟩ := by
  cases hp : bSet.partitioner with
  | none =>
    obtain ⟨st0, e0, i0, -, b1, b2, b3, b4⟩ := newMultiBatcher_single bCfg bSet hp hw
    obtain ⟨st, e1, i1, a1, a2, a3, a4, a5, a6, a7, a8⟩ := i0.single_calls cs
    refine ⟨st0, st, e0, e1, a2, a8, fun _ => by simp [i1.heap], ?_⟩
    intro c hc
    rw [i1.heap] at hc
    simp only [List.mem_singleton] at hc
    simp [hc, ownCell, a1, a2, a3, a4, a6, b1, b2, b3, b4]
  | some p =>
    obtain ⟨st0, e0, i0, -, -, -, b1, b2, b3, b4⟩ := newMultiBatcher_partitioned bCfg bSet p hp hw
    obtain ⟨st, e1, i1, ⟨a1, a2, a3, a4, a5, a6, a7, a8⟩, -⟩ := i0.seq_calls cs
    refine ⟨st0, st, e0, e1, a2, a8, fun h => by simp at h, ?_⟩
    intro c hc
    simp [i1.cells c hc, ownCell, a1, a2, a3, a4, a6, b1, b2, b3, b4]

/-- C8. For `maxWorkers = N > 0` the fill loop of `newMultiBatcher` completes
all its `N` sends without blocking and the dispatcher's pool is a channel of
capacity `N` holding `N` permits; for `maxWorkers = 0` the pool is nil and no
channel exists; and for every `maxWorkers ≥ 0`, after any sequence of calls
(which always runs to completion) the pool is the one built at construction
and every shard constructed so far, the single shard as well as each shard
created in `getShard`, holds exactly the configuration, sizer type, sizer,
pool and send function the dispatcher was constructed with. -/
theorem worker_pool_construction (bCfg : BatchConfig) (bSet : batcherSettings Ctx Req Key) :
    (0 < bSet.maxWorkers →
      sendLoop bSet.maxWorkers.toNat ⟨bSet.maxWorkers.toNat, 0⟩ =
        some ⟨bSet.maxWorkers.toNat, bSet.maxWorkers.toNat⟩ ∧
      ∃ st c, newMultiBatcher bCfg bSet = some st ∧ st.mb.wp = some 0 ∧ st.chans = [c] ∧
        (c.cap : Int) = bSet.maxWorkers ∧ (c.len : Int) = bSet.maxWorkers) ∧
    (bSet.maxWorkers = 0 →
      ∃ st, newMultiBatcher bCfg bSet = some st ∧ st.mb.wp = none ∧ st.chans = []) ∧
    (0 ≤ bSet.maxWorkers → ∀ cs : List (Call Ctx Req Key),
      ∃ st0 st, newMultiBatcher bCfg bSet = some st0 ∧ runCalls cs st0 = some st ∧
        st.mb.wp = st0.mb.wp ∧ st.chans = st0.chans ∧
        (bSet.partitioner = none → st.heap.length = 1) ∧
        ∀ c ∈ st.heap, c = ⟨bCfg, bSet.sizerType, bSet.sizer, st0.mb.wp, bSet.next⟩) := by
  refine ⟨?_, ?_, cells_after_calls bCfg bSet⟩
  · intro h
    refine ⟨by simpa using sendLoop_fill bSet.maxWorkers.toNat ⟨bSet.maxWorkers.toNat, 0⟩ (by simp),
      ?_⟩
    obtain ⟨st, e, hc, hw⟩ := newMultiBatcher_pool bCfg bSet _ (newWorkerPool_pos _ h)
    refine ⟨st, ⟨bSet.maxWorkers.toNat, bSet.maxWorkers.toNat⟩, e, by simpa using hw,
      by simpa using hc, ?_, ?_⟩ <;> simp <;> omega
  · intro h
    obtain ⟨st, e, hc, hw⟩ := newMultiBatcher_pool bCfg bSet none (by rw [h]; exact newWorkerPool_zero)
    exact ⟨st, e, by simpa using hw, by simpa using hc⟩

/-- Witness for C8: two workers, five tenant requests. -/
theorem worker_pool_construction_witness :
    (∃ st c, newMultiBatcher 7 tenantSettings = some st ∧ st.mb.wp = some 0 ∧ st.chans = [c] ∧
        (c.cap : Int) = 2 ∧ (c.len : Int) = 2) ∧
    (∃ st, newMultiBatcher 7 { tenantSettings with maxWorkers := 0 } = some st ∧
        st.mb.wp = none ∧ st.chans = []) ∧
    ∃ st0 st, newMultiBatcher 7 tenantSettings = some st0 ∧
        runCalls (consumeCalls tenantRequests) st0 = some st ∧
        st.mb.wp = st0.mb.wp ∧ st.chans = st0.chans ∧
        ∀ c ∈ st.heap, c = ⟨7, 1, 2, st0.mb.wp, 3⟩ := by
  refine ⟨((worker_pool_construction 7 tenantSettings).1 (by decide)).2,
    (worker_pool_construction 7 { tenantSettings with maxWorkers := 0 }).2.1 rfl, ?_⟩
  obtain ⟨st0, st, e0, e1, a1, a2, -, a3⟩ :=
    (worker_pool_construction 7 tenantSettings).2.2 (by decide) (consumeCalls tenantRequests)
  exact ⟨st0, st, e0, e1, a1, a2, a3⟩

/-! ## Racing calls of `getShard` -/

theorem countP_set_add {α : Type} (q : α → Bool) (l : List α) (i : Nat) (a b : α)
    (h : l[i]? = some a) :
    (l.set i b).countP q + (if q a then 1 else 0) = l.countP q + (if q b then 1 else 0) := by
  induction l generalizing i with
  | nil => simp at h
  | cons x l ih =>
    cases i with
    | zero =>
      simp only [List.getElem?_cons_zero, Option.some.injEq] at h
      subst h
      simp only [List.set_cons_zero, List.countP_cons]
      omega
    | succ i =>
      simp only [List.getElem?_cons_succ] at h
      have := ih i h
      simp only [List.set_cons_succ, List.countP_cons]
      omega

theorem ownerCount_set (ts : List (Pc Ctx Req Key)) (i : Nat) (pc pc1 : Pc Ctx Req Key)
    (s : ShardId) (h : ts[i]? = some pc) :
    ownerCount (ts.set i pc1) s + (if pc.owner = some s then 1 else 0) =
      ownerCount ts s + (if pc1.owner = some s then 1 else 0) := by
  have := countP_set_add (fun pc : Pc Ctx Req Key => decide (pc.owner = some s)) ts i pc pc1 h
  simpa [ownerCount] using this

theorem RaceInv.frame {p : Ctx → Req → Key} {K : Key} {st0 : State Ctx Req Key}
    {sys : Sys Ctx Req Key} (h : RaceInv p K st0 sys) (i : Nat) (pc pc1 : Pc Ctx Req Key)
    (st1 : State Ctx Req Key) (hi : sys.threads[i]? = some pc)
    (h1 : st1.mb.singleShard = none) (h2 : st1.mb.partitioner = some p)
    (h3 : st0.heap.length ≤ st1.heap.length)
    (h4 : (st1.mb.shards = st0.mb.shards ∧ SyncMap.Load st1.mb.shards K = none) ∨
      ∃ w : Nat, st0.heap.length ≤ w ∧ st1.mb.shards = st0.mb.shards ++ [(K, w)] ∧
        SyncMap.Load st1.mb.shards K = some w)
    (h5 : ∀ s : Nat, startCount st1.trace s = startCount st0.trace s + freshCount st0 st1 s)
    (h6 : ∀ s : Nat, shutdownCount st1.trace s + (if pc1.owner = some s then 1 else 0)
        + winnerCount st1 K s + freshCount st0 sys.st s =
      shutdownCount sys.st.trace s + (if pc.owner = some s then 1 else 0)
        + winnerCount sys.st K s + freshCount st0 st1 s)
    (h7 : ThreadOk p K st0 st1 pc1)
    (h8 : ∀ q, ThreadOk p K st0 sys.st q → ThreadOk p K st0 st1 q) :
    RaceInv p K st0 { st := st1, threads := sys.threads.set i pc1 } := by
  refine ⟨h1, h2, h3, h4, h5, ?_, ?_⟩
  · intro s
    have a := ownerCount_set sys.threads i pc pc1 s hi
    have b := h6 s
    have c := h.stops s
    simp only
    omega
  · intro j q hj
    simp only [List.getElem?_set] at hj
    by_cases e : i = j
    · simp only [e, if_true] at hj
      split at hj
      · cases hj
        exact h7
      · cases hj
    · simp only [e, if_false] at hj
      exact h8 q (h.threads j q hj)

theorem ThreadOk.congr {p : Ctx → Req → Key} {K : Key} {st0 st st1 : State Ctx Req Key}
    (e : st1.mb.shards = st.mb.shards) (q : Pc Ctx Req Key) (h : ThreadOk p K st0 st q) :
    ThreadOk p K st0 st1 q := by
  cases q <;> simp only [ThreadOk, e] at h ⊢ <;> exact h

theorem RaceInv.race_step {p : Ctx → Req → Key} {K : Key} {st0 : State Ctx Req Key}
    {sys : Sys Ctx Req Key} (h : RaceInv p K st0 sys) (i : Nat) :
    RaceInv p K st0 (sys.step i) := by
  cases hi : sys.threads[i]? with
  | none => simpa [Sys.step, hi] using h
  | some pc =>
    have hok := h.threads i pc hi
    simp only [Sys.step, hi]
    cases pc with
    | entry ctx req =>
      have e : stepGetShard sys.st (.entry ctx req) =
          (sys.st.log (.getKey ctx req), .keyed ctx (p ctx req)) := by
        simp [stepGetShard, h.single, h.part]
      rw [e]
      refine h.frame i _ _ _ hi h.single h.part h.grow h.reg ?_ ?_ hok
        (fun q hq => ThreadOk.congr rfl q hq)
      · intro s
        simpa [State.log, startCount, freshCount, List.countP_append] using h.starts s
      · intro s
        simp [State.log, shutdownCount, freshCount, winnerCount, List.countP_append, Pc.owner]
    | keyed ctx key =>
      cases hl : SyncMap.Load sys.st.mb.shards key with
      | some v =>
        have e : stepGetShard sys.st (.keyed ctx key) = (sys.st, .returned v) := by
          simp [stepGetShard, hl]
        rw [e]
        refine h.frame i _ _ _ hi h.single h.part h.grow h.reg h.starts ?_ ?_ (fun q hq => hq)
        · intro s
          simp [Pc.owner]
        · simp only [ThreadOk] at hok ⊢
          rw [← hok]
          exact hl
      | none =>
        have e : stepGetShard sys.st (.keyed ctx key) = (sys.st, .missed ctx key) := by
          simp [stepGetShard, hl]
        rw [e]
        refine h.frame i _ _ _ hi h.single h.part h.grow h.reg h.starts ?_ hok (fun q hq => hq)
        intro s
        simp [Pc.owner]
    | missed ctx key =>
      have e : stepGetShard sys.st (.missed ctx key) =
          ({ sys.st with heap := sys.st.heap ++ [ownCell sys.st.mb],
                         trace := sys.st.trace ++ [.start sys.st.heap.length ctx none] },
           .created ctx key sys.st.heap.length) := by
        simp [stepGetShard, newShard, shardStart, State.log, ownCell]
      rw [e]
      have hg := h.grow
      refine h.frame i _ _ _ hi h.single h.part (by simp; omega) h.reg ?_ ?_ ⟨hok, hg⟩
        (fun q hq => ThreadOk.congr rfl q hq)
      · intro s
        have := h.starts s
        simp only [startCount, freshCount] at this
        simp only [startCount, freshCount, List.countP_append, List.countP_cons, List.countP_nil,
          List.length_append, List.length_singleton, this]
        by_cases e1 : sys.st.heap.length = s
        · subst e1
          simp [hg]
        · have e2 : (s < sys.st.heap.length + 1) ↔ s < sys.st.heap.length := by omega
          simp [e1, e2]
      · intro s
        simp only [shutdownCount, freshCount, winnerCount, List.countP_append, List.countP_cons,
          List.countP_nil, List.length_append, List.length_singleton, Pc.owner]
        by_cases e1 : sys.st.heap.length = s
        · subst e1
          simp [hg]
          omega
        · have e2 : (s < sys.st.heap.length + 1) ↔ s < sys.st.heap.length := by omega
          simp [e1, e2]
    | created ctx key newS =>
      simp only [ThreadOk] at hok
      obtain ⟨hk, hb⟩ := hok
      subst hk
      cases hl : SyncMap.Load sys.st.mb.shards key with
      | none =>
        have e : stepGetShard sys.st (.created ctx key newS) =
            (sys.st.setShards (sys.st.mb.shards ++ [(key, newS)]), .stored ctx newS newS false) := by
          simp [stepGetShard, SyncMap.LoadOrStore, hl]
        rw [e]
        have hnew : SyncMap.Load (sys.st.mb.shards ++ [(key, newS)]) key = some newS := by
          simp [SyncMap.Load_append, hl]
        have hreg : sys.st.mb.shards = st0.mb.shards := by
          rcases h.reg with ⟨a, -⟩ | ⟨w, -, -, b⟩
          · exact a
          · rw [hl] at b
            cases b
        refine h.frame i _ _ _ hi h.single h.part h.grow ?_ ?_ ?_ ?_ ?_
        · exact Or.inr ⟨newS, hb, by simp [State.setShards, hreg],
            by simpa [State.setShards] using hnew⟩
        · intro s
          simpa [State.setShards, freshCount] using h.starts s
        · intro s
          simp only [State.setShards, winnerCount, freshCount, hnew, hl, Pc.owner,
            Option.some.injEq]
          by_cases e1 : newS = s <;> simp [e1]
        · simp only [ThreadOk, State.setShards]
          exact ⟨hnew, fun _ => trivial, hb⟩
        · intro q hq
          cases q <;> simp only [ThreadOk, hl] at hq ⊢ <;> first | exact hq | simp at hq
      | some v =>
        have e : stepGetShard sys.st (.created ctx key newS) =
            (sys.st.setShards sys.st.mb.shards, .stored ctx newS v true) := by
          simp [stepGetShard, SyncMap.LoadOrStore, hl]
        rw [e]
        refine h.frame i _ _ _ hi h.single h.part h.grow h.reg h.starts ?_ ?_
          (fun q hq => ThreadOk.congr rfl q hq)
        · intro s
          simp [State.setShards, winnerCount, freshCount, Pc.owner]
        · simp only [ThreadOk, State.setShards]
          exact ⟨hl, (fun e => by cases e), hb⟩
    | stored ctx newS s loaded =>
      cases loaded with
      | true =>
        have e : stepGetShard sys.st (.stored ctx newS s true) =
            (sys.st.log (.shutdown newS ctx), .returned s) := by
          simp [stepGetShard, shardShutdown]
        rw [e]
        refine h.frame i _ _ _ hi h.single h.part h.grow h.reg ?_ ?_ ?_
          (fun q hq => ThreadOk.congr rfl q hq)
        · intro t
          simpa [State.log, startCount, freshCount, List.countP_append] using h.starts t
        · intro t
          simp only [State.log, shutdownCount, freshCount, winnerCount, List.countP_append,
            List.countP_cons, List.countP_nil, Pc.owner, Option.some.injEq]
          by_cases e1 : newS = t <;> simp [e1]
        · simp only [ThreadOk] at hok ⊢
          exact hok.1
      | false =>
        have e : stepGetShard sys.st (.stored ctx newS s false) = (sys.st, .returned s) := by
          simp [stepGetShard]
        rw [e]
        refine h.frame i _ _ _ hi h.single h.part h.grow h.reg h.starts ?_ ?_ (fun q hq => hq)
        · intro t
          simp [Pc.owner]
        · simp only [ThreadOk] at hok ⊢
          exact hok.1
    | returned s =>
      have e : stepGetShard sys.st (.returned s) = (sys.st, .returned s) := rfl
      rw [e]
      exact h.frame i _ _ _ hi h.single h.part h.grow h.reg h.starts (fun t => by simp) hok
        (fun q hq => hq)
    | panicked => exact absurd hok (by simp [ThreadOk])

theorem RaceInv.race_run {p : Ctx → Req → Key} {K : Key} {st0 : State Ctx Req Key}
    (sched : List Nat) :
    ∀ {sys : Sys Ctx Req Key}, RaceInv p K st0 sys → RaceInv p K st0 (sys.run sched) := by
  induction sched with
  | nil => exact fun h => h
  | cons i rest ih => exact fun h => ih (h.race_step i)

theorem rank_step {p : Ctx → Req → Key} {K : Key} {st0 st : State Ctx Req Key}
    (pc : Pc Ctx Req Key) (h1 : st.mb.singleShard = none) (h2 : st.mb.partitioner = some p)
    (hok : ThreadOk p K st0 st pc) : min 5 (pc.rank + 1) ≤ (stepGetShard st pc).2.rank := by
  cases pc with
  | entry ctx req => simp [stepGetShard, h1, h2, Pc.rank]
  | keyed ctx key =>
    cases hl : SyncMap.Load st.mb.shards key <;> simp [stepGetShard, hl, Pc.rank]
  | missed ctx key => simp [stepGetShard, Pc.rank]
  | created ctx key newS => simp [stepGetShard, Pc.rank]
  | stored ctx newS s loaded => simp [stepGetShard, Pc.rank]
  | returned s => simp [stepGetShard, Pc.rank]
  | panicked => exact absurd hok (by simp [ThreadOk])

theorem rank_eq_five (pc : Pc Ctx Req Key) (h : 5 ≤ pc.rank) : ∃ s, pc = .returned s := by
  cases pc <;> simp [Pc.rank] at h
  exact ⟨_, rfl⟩

theorem RaceInv.race_progress {p : Ctx → Req → Key} {K : Key} {st0 : State Ctx Req Key}
    (sched : List Nat) :
    ∀ {sys : Sys Ctx Req Key} (c : Nat → Nat), RaceInv p K st0 sys →
      (∀ (i : Nat) pc, sys.threads[i]? = some pc → min 5 (c i) ≤ pc.rank) →
      ∀ (i : Nat) pc, (sys.run sched).threads[i]? = some pc →
        min 5 (c i + sched.count i) ≤ pc.rank := by
  induction sched with
  | nil =>
    intro sys c _ hc i pc hi
    simpa using hc i pc hi
  | cons j rest ih =>
    intro sys c h hc i pc hi
    have key : ∀ (i : Nat) pc, (sys.step j).threads[i]? = some pc →
        min 5 (c i + if j = i then 1 else 0) ≤ pc.rank := by
      intro i pc hi
      cases hj : sys.threads[j]? with
      | none =>
        simp only [Sys.step, hj] at hi
        by_cases e : j = i
        · subst e
          rw [hj] at hi
          cases hi
        · simpa [e] using hc i pc hi
      | some q =>
        simp only [Sys.step, hj, List.getElem?_set] at hi
        by_cases e : j = i
        · subst e
          simp only [if_true] at hi
          split at hi
          · cases hi
            have a := rank_step q h.single h.part (h.threads j q hj)
            have b := hc j q hj
            simp only [if_true]
            omega
          · cases hi
        · simp only [e, if_false] at hi
          simpa [e] using hc i pc hi
    have := ih (fun i => c i + if j = i then 1 else 0) (h.race_step j) key i pc hi
    simp only at this
    have e : (j :: rest).count i = rest.count i + if j = i then 1 else 0 := by
      simp [List.count_cons]
    omega

theorem raceStart_inv (p : Ctx → Req → Key) (K : Key) (st0 : State Ctx Req Key)
    (calls : List (Ctx × Req)) (h1 : st0.mb.singleShard = none)
    (h2 : st0.mb.partitioner = some p) (hK : ∀ c ∈ calls, p c.1 c.2 = K)
    (hnew : SyncMap.Load st0.mb.shards K = none) : RaceInv p K st0 (raceStart st0 calls) := by
  refine ⟨h1, h2, le_refl _, Or.inl ⟨rfl, hnew⟩, ?_, ?_, ?_⟩
  · intro s
    have hf : freshCount st0 st0 s = 0 := by
      simp only [freshCount]
      rw [if_neg (by omega)]
    simp [raceStart, hf]
  · intro s
    have hf : freshCount st0 st0 s = 0 := by
      simp only [freshCount]
      rw [if_neg (by omega)]
    have e : ownerCount (raceStart st0 calls).threads s = 0 := by
      simp [raceStart, ownerCount, List.countP_eq_zero, Pc.owner]
    have hw : winnerCount st0 K s = 0 := by simp [winnerCount, hnew]
    rw [e]
    simp only [raceStart]
    rw [hf, hw]
  · intro i pc hi
    simp only [raceStart, List.getElem?_map, Option.map_eq_some'] at hi
    obtain ⟨c, hc, rfl⟩ := hi
    exact hK c (List.getElem?_mem hc)

theorem Sys.step_length (sys : Sys Ctx Req Key) (i : Nat) :
    (sys.step i).threads.length = sys.threads.length := by
  cases h : sys.threads[i]? <;> simp [Sys.step, h]

theorem Sys.run_length (sched : List Nat) :
    ∀ sys : Sys Ctx Req Key, (sys.run sched).threads.length = sys.threads.length := by
  induction sched with
  | nil => exact fun _ => rfl
  | cons i rest ih => exact fun sys => (ih _).trans (sys.step_length i)

/-! ## C2: one shard per key under contention -/

theorem tenantState_wf : tenantState.WF := by
  refine ⟨?_, ?_, ?_⟩
  · intro e he
    simp [tenantState] at he
  · intro s _
    simp [tenantState, startCount]
  · intro s _
    simp [tenantState, shutdownCount]

/-- C2. Let `M ≥ 1` calls of `getShard` start in a partitioned state in which
the key `K` they all compute is not registered, and let them take their atomic
steps (`GetKey`, `Load`, `newShard` with `start`, `LoadOrStore`, shutdown if
loaded) in any interleaving.  Every call returns within five of its own steps.
Once all calls have returned, the registry is the old one plus exactly one
entry for `K`; all `M` calls returned the shard `w` of that entry; `w` was
constructed by these calls, started once and not shut down; every other shard
constructed by these calls was started once, shut down exactly once, returned
by no call and is not in the registry; and the calls made no `start` or
`shutdown` call on any shard that existed before. -/
theorem single_shard_under_contention (p : Ctx → Req → Key) (K : Key)
    (st0 : State Ctx Req Key) (calls : List (Ctx × Req)) (sched : List Nat)
    (fin : Sys Ctx Req Key) (hfin : fin = (raceStart st0 calls).run sched)
    (hM : 1 ≤ calls.length) (h1 : st0.mb.singleShard = none)
    (h2 : st0.mb.partitioner = some p) (hK : ∀ c ∈ calls, p c.1 c.2 = K)
    (hnew : SyncMap.Load st0.mb.shards K = none) (hwf : st0.WF) :
    ((∀ i : Nat, i < calls.length → 5 ≤ sched.count i) →
      ∀ pc ∈ fin.threads, pc.isReturned = true) ∧
    ((∀ pc ∈ fin.threads, pc.isReturned = true) →
      ∃ w : Nat, fin.st.mb.shards = st0.mb.shards ++ [(K, w)] ∧
        fin.st.mb.shards.filter (fun e => e.1 = K) = [(K, w)] ∧
        SyncMap.Load fin.st.mb.shards K = some w ∧
        fin.threads = List.replicate calls.length (Pc.returned w) ∧
        st0.heap.length ≤ w ∧ w < fin.st.heap.length ∧
        startCount fin.st.trace w = 1 ∧ shutdownCount fin.st.trace w = 0 ∧
        (∀ s : Nat, st0.heap.length ≤ s → s < fin.st.heap.length → s ≠ w →
          startCount fin.st.trace s = 1 ∧ shutdownCount fin.st.trace s = 1 ∧
          Pc.returned s ∉ fin.threads ∧ s ∉ fin.st.mb.shards.map Prod.snd) ∧
        (∀ s : Nat, s < st0.heap.length →
          startCount fin.st.trace s = startCount st0.trace s ∧
          shutdownCount fin.st.trace s = shutdownCount st0.trace s)) := by
  subst hfin
  have inv0 := raceStart_inv p K st0 calls h1 h2 hK hnew
  have inv := inv0.race_run sched
  have hlen : ((raceStart st0 calls).run sched).threads.length = calls.length := by
    rw [Sys.run_length]
    simp [raceStart]
  constructor
  · intro hfair pc hpc
    obtain ⟨i, hi⟩ := List.mem_iff_getElem?.mp hpc
    have hlt : i < calls.length := by
      obtain ⟨h, -⟩ := List.getElem?_eq_some.mp hi
      omega
    have hr := inv0.race_progress sched (fun _ => 0)
      (fun j q _ => by simp) i pc hi
    have := hfair i hlt
    simp only [Nat.zero_add] at hr
    obtain ⟨s, rfl⟩ := rank_eq_five pc (by omega)
    rfl
  · intro hall
    generalize (raceStart st0 calls).run sched = fin at inv hlen hall
    have hret : ∀ pc ∈ fin.threads, ∃ s : Nat, pc = .returned s ∧
        SyncMap.Load fin.st.mb.shards K = some s := by
      intro pc hpc
      have hr := hall pc hpc
      obtain ⟨i, hi⟩ := List.mem_iff_getElem?.mp hpc
      have hok := inv.threads i pc hi
      cases pc <;> simp [Pc.isReturned] at hr
      exact ⟨_, rfl, hok⟩
    obtain ⟨pc0, hpc0⟩ : ∃ pc0, pc0 ∈ fin.threads := by
      cases ht : fin.threads with
      | nil => simp [ht] at hlen; omega
      | cons a l => exact ⟨a, by simp⟩
    obtain ⟨s0, -, hs0⟩ := hret pc0 hpc0
    obtain ⟨w, hbw, hreg, hlw⟩ : ∃ w : Nat, st0.heap.length ≤ w ∧
        fin.st.mb.shards = st0.mb.shards ++ [(K, w)] ∧
        SyncMap.Load fin.st.mb.shards K = some w := by
      rcases inv.reg with ⟨-, b⟩ | h
      · rw [hs0] at b
        cases b
      · exact h
    have hallw : ∀ pc ∈ fin.threads, pc = .returned w := by
      intro pc hpc
      obtain ⟨s, rfl, hs⟩ := hret pc hpc
      rw [hlw] at hs
      cases hs
      rfl
    have hown : ∀ s : Nat, ownerCount fin.threads s = 0 := by
      intro s
      simp only [ownerCount, List.countP_eq_zero]
      intro pc hpc
      rw [hallw pc hpc]
      simp [Pc.owner]
    have hstop : ∀ s : Nat, shutdownCount fin.st.trace s + winnerCount fin.st K s =
        shutdownCount st0.trace s + freshCount st0 fin.st s := by
      intro s
      have := inv.stops s
      rw [hown s] at this
      omega
    have hww : winnerCount fin.st K w = 1 := by simp [winnerCount, hlw]
    have hwo : ∀ s : Nat, s ≠ w → winnerCount fin.st K s = 0 := by
      intro s hs
      simp only [winnerCount, hlw, Option.some.injEq]
      rw [if_neg (fun e => hs e.symm)]
    have hfle : ∀ s : Nat, freshCount st0 fin.st s ≤ 1 := by
      intro s
      simp only [freshCount]
      split <;> omega
    have hfw : freshCount st0 fin.st w = 1 := by
      have a := hstop w
      have b := hwf.stopped w hbw
      have c := hfle w
      omega
    have hwlt : w < fin.st.heap.length := by
      simp only [freshCount] at hfw
      split at hfw
      · omega
      · omega
    refine ⟨w, hreg, ?_, hlw, ?_, hbw, hwlt, ?_, ?_, ?_, ?_⟩
    · rw [hreg, List.filter_append]
      have : st0.mb.shards.filter (fun e => decide (e.1 = K)) = [] := by
        rw [List.filter_eq_nil_iff]
        intro e he hk
        have hk2 : e.1 = K := by simpa using hk
        exact (SyncMap.Load_eq_none_iff _ _).mp hnew (hk2 ▸ List.mem_map_of_mem Prod.fst he)
      rw [this]
      simp
    · rw [List.eq_replicate_iff]
      exact ⟨hlen, hallw⟩
    · have a := inv.starts w
      have b := hwf.started w hbw
      omega
    · have a := hstop w
      have b := hwf.stopped w hbw
      omega
    · intro s hs1 hs2 hsw
      have hf : freshCount st0 fin.st s = 1 := by
        simp only [freshCount]
        rw [if_pos ⟨hs1, hs2⟩]
      have a := inv.starts s
      have b := hwf.started s hs1
      have c := hstop s
      have d := hwf.stopped s hs1
      have e := hwo s hsw
      refine ⟨by omega, by omega, ?_, ?_⟩
      · intro hm
        have := hallw _ hm
        injection this with e1
        exact hsw e1
      · intro hm
        rw [hreg] at hm
        simp only [List.map_append, List.mem_append, List.map_cons, List.map_nil,
          List.mem_singleton] at hm
        rcases hm with hm | hm
        · obtain ⟨ent, hent, rfl⟩ := List.mem_map.mp hm
          have hlt : @LT.lt Nat _ ent.2 st0.heap.length := hwf.registered ent hent
          omega
        · exact hsw hm
    · intro s hs
      have hf : freshCount st0 fin.st s = 0 := by
        simp only [freshCount]
        rw [if_neg (by omega)]
      have a := inv.starts s
      have c := hstop s
      have e := hwo s (by omega)
      omega

/-- Witness for C2: two calls race on tenant A in a freshly constructed
dispatcher; the second call publishes its shard first and the first call's
shard is shut down. -/
theorem single_shard_under_contention_witness :
    (tenantState.WF ∧ newMultiBatcher 7 tenantSettings = some tenantState) ∧
    (((raceStart tenantState tenantRace).run [0, 0, 0, 1, 1, 1, 1, 0, 0, 1]).threads =
        [Pc.returned 1, Pc.returned 1] ∧
      shutdownCount ((raceStart tenantState tenantRace).run
        [0, 0, 0, 1, 1, 1, 1, 0, 0, 1]).st.trace 0 = 1) ∧
    ∃ w : Nat,
      ((raceStart tenantState tenantRace).run [0, 0, 0, 1, 1, 1, 1, 0, 0, 1]).st.mb.shards
        = [(Tenant.A, w)] := by
  refine ⟨⟨tenantState_wf, rfl⟩, ⟨rfl, by decide⟩, ?_⟩
  obtain ⟨w, h, -⟩ := (single_shard_under_contention tenantOf Tenant.A tenantState tenantRace
    [0, 0, 0, 1, 1, 1, 1, 0, 0, 1] _ rfl (by decide) rfl rfl (by decide) rfl tenantState_wf).2
    (by decide)
  exact ⟨w, h⟩

/-! ## The atomic steps against the sequential method -/

theorem getShard_eq_steps (st : State Ctx Req Key) (ctx : Ctx) (req : Req) :
    getShard st ctx req =
      match stepsGetShard 5 (st, .entry ctx req) with
      | (st1, .returned s) => some (s, st1)
      | _ => none := by
  cases h1 : st.mb.singleShard with
  | some s => simp [getShard, stepsGetShard, stepGetShard, h1]
  | none =>
    cases h2 : st.mb.partitioner with
    | none => simp [getShard, stepsGetShard, stepGetShard, h1, h2]
    | some p =>
      cases hl : SyncMap.Load st.mb.shards (p ctx req) with
      | some v => simp [getShard, stepsGetShard, stepGetShard, h1, h2, hl, State.log]
      | none =>
        simp [getShard, stepsGetShard, stepGetShard, h1, h2, hl, State.log, newShard,
          shardStart, SyncMap.LoadOrStore, State.setShards]

/-! ## C3: the outcome of publishing a new shard -/

theorem tenantStateA_wf : tenantStateA.WF := by
  refine ⟨?_, ?_, ?_⟩
  · intro e he
    simp only [tenantStateA, List.mem_singleton] at he
    subst he
    simp [tenantStateA]
  · intro s hs
    simp only [tenantStateA, List.length_singleton] at hs
    have : ¬ 0 = s := by omega
    simp [tenantStateA, startCount, List.countP_cons, this]
  · intro s _
    simp [tenantStateA, shutdownCount, List.countP_cons]

/-- C3. A call of `getShard` whose `Load` missed runs its remaining three
steps from any well-formed state `st` (in which another call may have
registered the key since).  It constructs the shard `newS`, starts it once and
returns.  If `LoadOrStore` reports the key was not present, the call returns
`newS`, which is now stored under the key, as a new last entry of the registry,
and has not been shut down.  If `LoadOrStore` reports the key was present, the
call returns the shard that was stored, which is not `newS`, the registry is
unchanged and `newS` has been shut down exactly once. -/
theorem publish_outcome (st : State Ctx Req Key) (hwf : st.WF) (ctx : Ctx) (key : Key) :
    ∃ st1 s, stepsGetShard 3 (st, .missed ctx key) = (st1, .returned s) ∧
      st1.heap = st.heap ++ [ownCell st.mb] ∧
      startCount st1.trace st.heap.length = 1 ∧
      ((SyncMap.LoadOrStore st.mb.shards key st.heap.length).2.1 = false →
        s = st.heap.length ∧ SyncMap.Load st1.mb.shards key = some st.heap.length ∧
        st1.mb.shards = st.mb.shards ++ [(key, st.heap.length)] ∧
        shutdownCount st1.trace st.heap.length = 0) ∧
      ((SyncMap.LoadOrStore st.mb.shards key st.heap.length).2.1 = true →
        SyncMap.Load st.mb.shards key = some s ∧ s ≠ st.heap.length ∧
        st1.mb.shards = st.mb.shards ∧
        shutdownCount st1.trace st.heap.length = 1) := by
  have hs := hwf.started st.heap.length (le_refl _)
  have hp := hwf.stopped st.heap.length (le_refl _)
  simp only [startCount] at hs
  simp only [shutdownCount] at hp
  cases hl : SyncMap.Load st.mb.shards key with
  | none =>
    refine ⟨{ mb := { st.mb with shards := st.mb.shards ++ [(key, st.heap.length)] }
              chans := st.chans
              heap := st.heap ++ [ownCell st.mb]
              trace := st.trace ++ [.start st.heap.length ctx none] },
      st.heap.length, ?_, ?_, ?_, ?_, ?_⟩
    · simp [stepsGetShard, stepGetShard, newShard, shardStart, State.log, State.setShards,
        SyncMap.LoadOrStore, hl, ownCell]
    · simp [ownCell]
    · simp [startCount, List.countP_append, hs]
    · intro _
      refine ⟨rfl, ?_, rfl, ?_⟩
      · simp [SyncMap.Load_append, hl]
      · simp [shutdownCount, List.countP_append, hp]
    · intro hc
      simp [SyncMap.LoadOrStore, hl] at hc
  | some v =>
    refine ⟨{ st with heap := st.heap ++ [ownCell st.mb]
                      trace := st.trace ++ [.start st.heap.length ctx none,
                        .shutdown st.heap.length ctx] },
      v, ?_, ?_, ?_, ?_, ?_⟩
    · simp [stepsGetShard, stepGetShard, newShard, shardStart, shardShutdown, State.log,
        State.setShards, SyncMap.LoadOrStore, hl, ownCell]
    · simp [ownCell]
    · simp [startCount, List.countP_append, hs]
    · intro hc
      simp [SyncMap.LoadOrStore, hl] at hc
    · intro _
      have hv : @LT.lt Nat _ v st.heap.length :=
        hwf.registered (key, v) (SyncMap.Load_mem _ _ _ hl)
      refine ⟨rfl, Nat.ne_of_lt hv, rfl, ?_⟩
      simp [shutdownCount, List.countP_append, hp]

/-- Witness for C3: in the fresh state the key of tenant A is absent and the new
shard 0 is published; once shard 0 is registered under A, a call that missed
earlier builds shard 1, shuts it down and returns shard 0. -/
theorem publish_outcome_witness :
    (∃ st1, stepsGetShard 3 (tenantState, .missed () Tenant.A) = (st1, .returned 0) ∧
      st1.mb.shards = [(Tenant.A, 0)] ∧ shutdownCount st1.trace 0 = 0) ∧
    (∃ st1, stepsGetShard 3 (tenantStateA, .missed () Tenant.A) = (st1, .returned 0) ∧
      st1.mb.shards = [(Tenant.A, 0)] ∧ shutdownCount st1.trace 1 = 1) := by
  constructor
  · obtain ⟨st1, s, e, -, -, h1, -⟩ := publish_outcome tenantState tenantState_wf () Tenant.A
    obtain ⟨rfl, -, h2, h3⟩ := h1 rfl
    exact ⟨st1, e, h2, h3⟩
  · obtain ⟨st1, s, e, -, -, -, h1⟩ := publish_outcome tenantStateA tenantStateA_wf () Tenant.A
    obtain ⟨h0, -, h2, h3⟩ := h1 rfl
    have hs : s = 0 := by
      have : SyncMap.Load tenantStateA.mb.shards Tenant.A = some 0 := rfl
      rw [this] at h0
      exact (Option.some.inj h0).symm
    subst hs
    exact ⟨st1, e, h2, h3⟩

/-! ## C10: the comment on the result of `LoadOrStore` -/

/-- C10.  The comment on line 73 says that when `LoadOrStore` reports the value
was not loaded the newly created shard is shut down; the guard on line 74 is
`if loaded`.  In a freshly constructed dispatcher `getShard` on a request of
tenant A constructs shard 0, `LoadOrStore` reports that the value was not
loaded, and `getShard` returns shard 0, now stored under A, without any
`shutdown` call on it. -/
theorem not_loaded_keeps_new_shard :
    (SyncMap.LoadOrStore tenantState.mb.shards Tenant.A 0).2.1 = false ∧
    ∃ st1, getShard tenantState () (Tenant.A, 10) = some (0, st1) ∧
      st1.heap.length = 1 ∧ SyncMap.Load st1.mb.shards Tenant.A = some 0 ∧
      startCount st1.trace 0 = 1 ∧ shutdownCount st1.trace 0 = 0 :=
  ⟨rfl, _, rfl, rfl, rfl, by decide, by decide⟩

/-- What `getShard` does from `LoadOrStore` on, with the new shard `newS` in
hand.  It returns the value `LoadOrStore` returned, which is afterwards the
shard stored under the key.  If the value was loaded, that is, the key was
already present, the registry is unchanged and `getShard` makes exactly one
`shutdown` call, on `newS`.  If the value was not loaded, `newS` is the value
returned, it has become the last entry of the registry, and `getShard` makes
no `shutdown` call. -/
theorem loaded_shuts_new_shard_down (st : State Ctx Req Key) (ctx : Ctx) (key : Key)
    (newS : ShardId) :
    (stepsGetShard 2 (st, .created ctx key newS)).2 =
        .returned (SyncMap.LoadOrStore st.mb.shards key newS).1 ∧
    SyncMap.Load (stepsGetShard 2 (st, .created ctx key newS)).1.mb.shards key =
        some (SyncMap.LoadOrStore st.mb.shards key newS).1 ∧
    (∀ t : Nat, shutdownCount (stepsGetShard 2 (st, .created ctx key newS)).1.trace t =
        shutdownCount st.trace t +
          if (SyncMap.LoadOrStore st.mb.shards key newS).2.1 = true ∧ newS = t then 1 else 0) ∧
    ((SyncMap.LoadOrStore st.mb.shards key newS).2.1 = true ↔
        ∃ v, SyncMap.Load st.mb.shards key = some v) ∧
    ((SyncMap.LoadOrStore st.mb.shards key newS).2.1 = true →
        (stepsGetShard 2 (st, .created ctx key newS)).1.mb.shards = st.mb.shards) ∧
    ((SyncMap.LoadOrStore st.mb.shards key newS).2.1 = false →
        (SyncMap.LoadOrStore st.mb.shards key newS).1 = newS ∧
        (stepsGetShard 2 (st, .created ctx key newS)).1.mb.shards =
          st.mb.shards ++ [(key, newS)]) := by
  cases hl : SyncMap.Load st.mb.shards key with
  | none =>
    refine ⟨?_, ?_, ?_, ?_, ?_, ?_⟩
    · simp [stepsGetShard, stepGetShard, SyncMap.LoadOrStore, hl]
    · simp [stepsGetShard, stepGetShard, SyncMap.LoadOrStore, hl, State.setShards,
        SyncMap.Load_append]
    · intro t
      simp [stepsGetShard, stepGetShard, SyncMap.LoadOrStore, hl, State.setShards]
    · simp [SyncMap.LoadOrStore, hl]
    · simp [SyncMap.LoadOrStore, hl]
    · simp [stepsGetShard, stepGetShard, SyncMap.LoadOrStore, hl, State.setShards]
  | some v =>
    refine ⟨?_, ?_, ?_, ?_, ?_, ?_⟩
    · simp [stepsGetShard, stepGetShard, SyncMap.LoadOrStore, hl]
    · simp [stepsGetShard, stepGetShard, SyncMap.LoadOrStore, hl, State.setShards,
        shardShutdown, State.log]
    · intro t
      simp [stepsGetShard, stepGetShard, SyncMap.LoadOrStore, hl, State.setShards,
        shardShutdown, State.log, shutdownCount, List.countP_append, List.countP_cons]
    · simp [SyncMap.LoadOrStore, hl]
    · simp [stepsGetShard, stepGetShard, SyncMap.LoadOrStore, hl, State.setShards,
        shardShutdown, State.log]
    · simp [SyncMap.LoadOrStore, hl]

/-! ## The goroutines of `Shutdown` -/

theorem invokedCount_set (ws : List Worker) (i : Nat) (w w1 : Worker) (s : ShardId)
    (h : ws[i]? = some w) :
    invokedCount (ws.set i w1) s + (if w.shard = s ∧ 1 ≤ w.rank then 1 else 0) =
      invokedCount ws s + (if w1.shard = s ∧ 1 ≤ w1.rank then 1 else 0) := by
  have := countP_set_add (fun w : Worker => decide (w.shard = s ∧ 1 ≤ w.rank)) ws i w w1 h
  simpa [invokedCount] using this

theorem liveCount_set (ws : List Worker) (i : Nat) (w w1 : Worker) (h : ws[i]? = some w) :
    liveCount (ws.set i w1) + (if w.rank < 3 then 1 else 0) =
      liveCount ws + (if w1.rank < 3 then 1 else 0) := by
  have := countP_set_add (fun w : Worker => decide (w.rank < 3)) ws i w w1 h
  simpa [liveCount] using this

theorem shutdownCount_order (tr : List (Event Ctx Req)) (ctx : Ctx) (order : List ShardId)
    (s : ShardId) :
    shutdownCount (tr ++ order.map fun t => Event.shutdown t ctx) s =
      shutdownCount tr s + order.count s := by
  induction order generalizing tr with
  | nil => simp
  | cons a rest ih =>
    have e : tr ++ (a :: rest).map (fun t => Event.shutdown t ctx) =
        (tr ++ [Event.shutdown a ctx]) ++ rest.map fun t => Event.shutdown t ctx := by simp
    rw [e, ih]
    by_cases h : a = s
    · simp [shutdownCount, List.countP_append, h]
      omega
    · simp [shutdownCount, List.countP_append, List.count_cons, h]

theorem map_shard_set (ws : List Worker) (i : Nat) (w w1 : Worker) (h : ws[i]? = some w)
    (hs : w1.shard = w.shard) : (ws.set i w1).map Worker.shard = ws.map Worker.shard := by
  induction ws generalizing i with
  | nil => simp
  | cons x l ih =>
    cases i with
    | zero =>
      simp only [List.getElem?_cons_zero, Option.some.injEq] at h
      subst h
      simp [hs]
    | succ i =>
      simp only [List.getElem?_cons_succ] at h
      simp [ih i h]

theorem FanoutInv.start (st : State Ctx Req Key) (ctx : Ctx) (ord : SyncMap.RangeOrder Key) :
    FanoutInv st ctx (ord.visit st.mb.shards) (fanoutStart st ctx ord) := by
  refine ⟨rfl, by simp [fanoutStart], by simp [fanoutStart, liveCount], ⟨[], ?_, ?_⟩, ?_⟩
  · simp [fanoutStart]
  · intro s
    simp [fanoutStart, invokedCount]
  · intro r hr
    simp [fanoutStart] at hr

theorem FanoutInv.work {st : State Ctx Req Key} {ctx : Ctx} {visit : List (Key × ShardId)}
    {f : Fanout Ctx Req Key} (h : FanoutInv st ctx visit f) (i : Nat) : FanoutInv st ctx visit (f.work i) := by
  obtain ⟨order, hst, hcount⟩ := h.calls
  cases hi : f.workers[i]? with
  | none => simpa [Fanout.work, hi] using h
  | some w =>
    cases w with
    | ready s =>
      simp only [Fanout.work, hi]
      refine ⟨h.ctx_eq, ?_, ?_, ⟨order ++ [s], ?_, ?_⟩, h.done⟩
      · rw [← h.split]
        simp only
        exact congrArg (fun l => l ++ List.map Prod.snd f.todo)
          (map_shard_set f.workers i _ _ hi rfl)
      · have := liveCount_set f.workers i _ (.running s) hi
        simp [Worker.rank] at this
        have c := h.counter
        simp only
        omega
      · simp [shardShutdown, State.log, hst, h.ctx_eq]
      · intro t
        have a := invokedCount_set f.workers i _ (.running s) t hi
        have b := hcount t
        simp only [List.count_append, List.count_singleton]
        by_cases e : s = t
        · subst e
          simp [Worker.rank, Worker.shard] at a ⊢
          omega
        · have e2 : ¬ (s == t) = true := by simpa using e
          simp [Worker.rank, Worker.shard, e] at a
          simp only [e2]
          simp
          omega
    | running s =>
      simp only [Fanout.work, hi]
      refine ⟨h.ctx_eq, ?_, ?_, ⟨order, hst, ?_⟩, h.done⟩
      · rw [← h.split]
        simp only
        exact congrArg (fun l => l ++ List.map Prod.snd f.todo)
          (map_shard_set f.workers i _ _ hi rfl)
      · have := liveCount_set f.workers i _ (.finishing s) hi
        simp [Worker.rank] at this
        have c := h.counter
        simp only
        omega
      · intro t
        have a := invokedCount_set f.workers i _ (.finishing s) t hi
        have b := hcount t
        simp only
        by_cases e : s = t
        · subst e
          simp [Worker.rank, Worker.shard] at a
          omega
        · simp [Worker.rank, Worker.shard, e] at a
          omega
    | finishing s =>
      simp only [Fanout.work, hi]
      refine ⟨h.ctx_eq, ?_, ?_, ⟨order, hst, ?_⟩, ?_⟩
      · rw [← h.split]
        simp only
        exact congrArg (fun l => l ++ List.map Prod.snd f.todo)
          (map_shard_set f.workers i _ _ hi rfl)
      · have := liveCount_set f.workers i _ (.exited s) hi
        simp [Worker.rank] at this
        have c := h.counter
        simp only
        omega
      · intro t
        have a := invokedCount_set f.workers i _ (.exited s) t hi
        have b := hcount t
        simp only
        by_cases e : s = t
        · subst e
          simp [Worker.rank, Worker.shard] at a
          omega
        · simp [Worker.rank, Worker.shard, e] at a
          omega
      · intro r hr
        obtain ⟨a, b, c⟩ := h.done r hr
        exact ⟨a, b, by simp only; omega⟩
    | exited s => simpa [Fanout.work, hi] using h

theorem FanoutInv.fan_step {st : State Ctx Req Key} {ctx : Ctx} {visit : List (Key × ShardId)}
    {f : Fanout Ctx Req Key} (h : FanoutInv st ctx visit f) (a : FanoutAction) : FanoutInv st ctx visit (f.step a) := by
  cases a with
  | work i => exact h.work i
  | range =>
    cases hr : f.result with
    | some r => simpa [Fanout.step, hr] using h
    | none =>
      cases ht : f.todo with
      | nil => simpa [Fanout.step, hr, ht] using h
      | cons e rest =>
        obtain ⟨k, v⟩ := e
        obtain ⟨order, hst, hcount⟩ := h.calls
        simp only [Fanout.step, hr, ht]
        refine ⟨h.ctx_eq, ?_, ?_, ⟨order, hst, ?_⟩, ?_⟩
        · rw [← h.split, ht]
          simp [Worker.shard]
        · have c := h.counter
          simp only [liveCount, List.countP_append, List.countP_cons, List.countP_nil,
            Worker.rank] at c ⊢
          simp
          omega
        · intro t
          rw [hcount t]
          simp [invokedCount, List.countP_append, Worker.rank]
        · intro r hr2
          simp [hr] at hr2
  | wait =>
    cases hr : f.result with
    | some r => simpa [Fanout.step, hr] using h
    | none =>
      cases ht : f.todo with
      | cons e rest => simpa [Fanout.step, hr, ht] using h
      | nil =>
        by_cases hw : f.wg = 0
        · simp only [Fanout.step, hr, ht, hw, if_true]
          refine ⟨h.ctx_eq, ?_, ?_, h.calls, ?_⟩
          · simpa [ht] using h.split
          · simpa [hw] using h.counter
          · intro r hr2
            simp only [Option.some.injEq] at hr2
            exact ⟨hr2.symm, rfl, rfl⟩
        · simpa [Fanout.step, hr, ht, hw] using h

theorem FanoutInv.fan_run {st : State Ctx Req Key} {ctx : Ctx} {visit : List (Key × ShardId)}
    (sched : List FanoutAction) :
    ∀ {f : Fanout Ctx Req Key}, FanoutInv st ctx visit f →
      FanoutInv st ctx visit (f.run sched) := by
  induction sched with
  | nil => exact fun h => h
  | cons a rest ih => exact fun h => ih (h.fan_step a)

theorem liveCount_eq_zero (ws : List Worker) (h : liveCount ws = 0) :
    ∀ w ∈ ws, ∃ s, w = .exited s := by
  intro w hw
  simp only [liveCount, List.countP_eq_zero] at h
  have := h w hw
  cases w <;> simp [Worker.rank] at this
  exact ⟨_, rfl⟩

theorem invokedCount_exited (ws : List Worker) (s : ShardId)
    (h : ∀ w ∈ ws, ∃ t, w = .exited t) :
    invokedCount ws s = (ws.map Worker.shard).count s := by
  induction ws with
  | nil => simp [invokedCount]
  | cons w l ih =>
    obtain ⟨t, rfl⟩ := h _ (List.mem_cons_self _ _)
    have := ih fun w hw => h w (List.mem_cons_of_mem _ hw)
    simp only [invokedCount, List.countP_cons, List.map_cons, List.count_cons] at this ⊢
    rw [this]
    by_cases e : t = s <;> simp [Worker.shard, Worker.rank, e]

theorem Fanout.run_append (a b : List FanoutAction) :
    ∀ f : Fanout Ctx Req Key, f.run (a ++ b) = (f.run a).run b := by
  induction a with
  | nil => exact fun _ => rfl
  | cons x rest ih => exact fun f => ih (f.step x)

theorem Fanout.step_todo_nil (f : Fanout Ctx Req Key) (a : FanoutAction) (h : f.todo = []) :
    (f.step a).todo = [] ∧ (f.step a).workers.length = f.workers.length := by
  cases a with
  | range => cases hr : f.result <;> simp [Fanout.step, hr, h]
  | wait =>
    cases hr : f.result with
    | some r => simp [Fanout.step, hr, h]
    | none =>
      by_cases hw : f.wg = 0 <;> simp [Fanout.step, hr, h, hw]
  | work i =>
    cases hi : f.workers[i]? with
    | none => simp [Fanout.step, Fanout.work, hi, h]
    | some w => cases w <;> simp [Fanout.step, Fanout.work, hi, h]

theorem Fanout.run_todo_nil (sched : List FanoutAction) :
    ∀ f : Fanout Ctx Req Key, f.todo = [] →
      (f.run sched).todo = [] ∧ (f.run sched).workers.length = f.workers.length := by
  induction sched with
  | nil => exact fun f h => ⟨h, rfl⟩
  | cons a rest ih =>
    intro f h
    obtain ⟨h1, h2⟩ := f.step_todo_nil a h
    obtain ⟨h3, h4⟩ := ih (f.step a) h1
    exact ⟨h3, h4.trans h2⟩

theorem FanoutInv.ranges_clear {st : State Ctx Req Key} {ctx : Ctx}
    {visit : List (Key × ShardId)} (n : Nat) :
    ∀ {f : Fanout Ctx Req Key}, FanoutInv st ctx visit f → f.todo.length ≤ n →
      (f.run (List.replicate n .range)).todo = [] := by
  induction n with
  | zero =>
    intro f _ hn
    simpa [Fanout.run] using hn
  | succ n ih =>
    intro f h hn
    simp only [List.replicate_succ, Fanout.run]
    apply ih (h.fan_step .range)
    cases hr : f.result with
    | some r =>
      have := (h.done r hr).2.1
      simp [Fanout.step, hr, this]
    | none =>
      cases ht : f.todo with
      | nil => simp [Fanout.step, hr, ht]
      | cons e rest =>
        obtain ⟨k, v⟩ := e
        rw [ht] at hn
        simp only [List.length_cons] at hn
        simp only [Fanout.step, hr, ht]
        omega

theorem Fanout.step_rank (f : Fanout Ctx Req Key) (a : FanoutAction) (h : f.todo = [])
    (i : Nat) (w1 : Worker) (hi : (f.step a).workers[i]? = some w1) :
    ∃ w, f.workers[i]? = some w ∧
      min 3 (w.rank + if a = .work i then 1 else 0) ≤ w1.rank := by
  cases a with
  | range =>
    have e : f.step .range = f := by cases hr : f.result <;> simp [Fanout.step, hr, h]
    rw [e] at hi
    exact ⟨w1, hi, by simp⟩
  | wait =>
    have e : (f.step .wait).workers = f.workers := by
      cases hr : f.result with
      | some r => simp [Fanout.step, hr, h]
      | none => by_cases hw : f.wg = 0 <;> simp [Fanout.step, hr, h, hw]
    rw [e] at hi
    exact ⟨w1, hi, by simp⟩
  | work j =>
    simp only [Fanout.step] at hi
    cases hj : f.workers[j]? with
    | none =>
      simp only [Fanout.work, hj] at hi
      refine ⟨w1, hi, ?_⟩
      by_cases e : j = i
      · subst e
        rw [hj] at hi
        cases hi
      · simp [e]
    | some w =>
      by_cases e : j = i
      · subst e
        refine ⟨w, hj, ?_⟩
        have hlt : j < f.workers.length := (List.getElem?_eq_some.mp hj).1
        cases w <;> simp only [Fanout.work, hj, List.getElem?_set, if_true, hlt] at hi <;>
          (injection hi with hi; subst hi; simp [Worker.rank])
      · refine ⟨w1, ?_, by simp [e]⟩
        cases w <;> simp only [Fanout.work, hj, List.getElem?_set, e, if_false] at hi <;> exact hi

theorem Fanout.fan_progress (sched : List FanoutAction) :
    ∀ (f : Fanout Ctx Req Key) (c : Nat → Nat), f.todo = [] →
      (∀ (i : Nat) w, f.workers[i]? = some w → min 3 (c i) ≤ w.rank) →
      ∀ (i : Nat) w, (f.run sched).workers[i]? = some w →
        min 3 (c i + sched.count (.work i)) ≤ w.rank := by
  induction sched with
  | nil =>
    intro f c _ hc i w hi
    simpa using hc i w hi
  | cons a rest ih =>
    intro f c ht hc i w hi
    have key : ∀ (i : Nat) w, (f.step a).workers[i]? = some w →
        min 3 (c i + if a = .work i then 1 else 0) ≤ w.rank := by
      intro i w1 hi
      obtain ⟨w, hw, hr⟩ := f.step_rank a ht i w1 hi
      have := hc i w hw
      omega
    have := ih (f.step a) (fun i => c i + if a = .work i then 1 else 0)
      (f.step_todo_nil a ht).1 key i w hi
    simp only at this
    have e : (a :: rest).count (.work i) = rest.count (.work i) + if a = .work i then 1 else 0 := by
      simp [List.count_cons]
    omega

/-! ## C6: completeness of `Shutdown` -/

theorem SeqInv.values_nodup {p : Ctx → Req → Key} {st : State Ctx Req Key} (h : SeqInv p st) :
    (st.mb.shards.map Prod.snd).Nodup := by
  rw [h.vals]
  exact List.nodup_range _

/-- C6. `Shutdown(ctx)` is called in partitioned mode in a state whose registry
holds pairwise distinct shards (as every registry built by `getShard` does);
`Range` visits the registry in any order, and `Range`, the goroutines and
`wg.Wait()` interleave in any way.  If
`Shutdown` has returned, it returned nil, there is one goroutine per registry
entry and each has completed its `shutdown` call and `wg.Done()`, the state
differs from the initial one only by `shutdown` calls appended to the trace,
one per registry entry in some order, so the registry is unchanged, every
registered shard was shut down exactly once and no other shard was.  From
every reachable point `Shutdown` returns once `Range` and each goroutine have
been given their steps.  The method `Shutdown` of the sequential embedding is
the run in which each goroutine executes as soon as `Range` has started it. -/
theorem shutdown_completeness (st : State Ctx Req Key) (ctx : Ctx)
    (ord : SyncMap.RangeOrder Key) (sched : List FanoutAction) (fin : Fanout Ctx Req Key)
    (hfin : fin = (fanoutStart st ctx ord).run sched)
    (h1 : st.mb.singleShard = none) (hnd : (st.mb.shards.map Prod.snd).Nodup) :
    (fin.result ≠ none →
      fin.result = some none ∧
      fin.workers = (ord.visit st.mb.shards).map (fun e => Worker.exited e.2) ∧
      fin.st.mb.shards = st.mb.shards ∧
      (∃ order : List ShardId, order.Perm (st.mb.shards.map Prod.snd) ∧
        fin.st = { st with trace := st.trace ++ order.map fun s => Event.shutdown s ctx }) ∧
      (∀ s : Nat, s ∈ st.mb.shards.map Prod.snd →
        shutdownCount fin.st.trace s = shutdownCount st.trace s + 1) ∧
      (∀ s : Nat, s ∉ st.mb.shards.map Prod.snd →
        shutdownCount fin.st.trace s = shutdownCount st.trace s)) ∧
    (∀ more : List FanoutAction,
      (∀ i : Nat, i < st.mb.shards.length → 3 ≤ more.count (.work i)) →
      (fin.run (List.replicate st.mb.shards.length .range ++ more ++ [.wait])).result
        = some none) ∧
    Shutdown st ctx ord = some
      ({ st with trace := st.trace ++
          (ord.visit st.mb.shards).map fun e => Event.shutdown e.2 ctx }, none) := by
  subst hfin
  have inv : FanoutInv st ctx (ord.visit st.mb.shards) ((fanoutStart st ctx ord).run sched) :=
    (FanoutInv.start st ctx ord).fan_run sched
  generalize (fanoutStart st ctx ord).run sched = fin at inv
  have hvlen : (ord.visit st.mb.shards).length = st.mb.shards.length := (ord.perm _).length_eq
  have hvperm : ((ord.visit st.mb.shards).map Prod.snd).Perm (st.mb.shards.map Prod.snd) :=
    (ord.perm _).map Prod.snd
  refine ⟨?_, ?_, Shutdown_partitioned st ctx ord h1⟩
  · intro hres
    cases hr : fin.result with
    | none => exact absurd hr hres
    | some r =>
      obtain ⟨rfl, htodo, hwg⟩ := inv.done r hr
      have hlive : liveCount fin.workers = 0 := by rw [← inv.counter, hwg]
      have hex := liveCount_eq_zero fin.workers hlive
      have hsplit := inv.split
      simp only [htodo, List.map_nil, List.append_nil] at hsplit
      obtain ⟨order, hst, hcount⟩ := inv.calls
      have hperm : order.Perm (st.mb.shards.map Prod.snd) := by
        refine List.Perm.trans ?_ hvperm
        rw [List.perm_iff_count]
        intro s
        rw [hcount s, invokedCount_exited fin.workers s hex, hsplit]
      refine ⟨rfl, ?_, by rw [hst], ⟨order, hperm, hst⟩, ?_, ?_⟩
      · apply List.ext_getElem?
        intro i
        have e := congrArg (fun l => l[i]?) hsplit
        simp only [List.getElem?_map] at e ⊢
        cases hw : fin.workers[i]? with
        | none =>
          rw [hw] at e
          cases hs : (ord.visit st.mb.shards)[i]? with
          | none => rfl
          | some x => simp [hs] at e
        | some w =>
          rw [hw] at e
          obtain ⟨t, rfl⟩ := hex w (List.getElem?_mem hw)
          cases hs : (ord.visit st.mb.shards)[i]? with
          | none => simp [hs] at e
          | some x =>
            simp only [hs, Option.map_some', Option.some.injEq, Worker.shard] at e
            simp [e]
      · intro s hs
        rw [hst]
        simp only
        rw [shutdownCount_order, hperm.count_eq, List.count_eq_one_of_mem hnd hs]
      · intro s hs
        rw [hst]
        simp only
        rw [shutdownCount_order, hperm.count_eq, List.count_eq_zero_of_not_mem hs, Nat.add_zero]
  · intro more hfair
    rw [Fanout.run_append, Fanout.run_append]
    have hlen : fin.todo.length ≤ st.mb.shards.length := by
      have := congrArg List.length inv.split
      simp only [List.length_append, List.length_map] at this
      omega
    have inv1 := inv.fan_run (List.replicate st.mb.shards.length .range)
    have ht1 := inv.ranges_clear st.mb.shards.length hlen
    generalize fin.run (List.replicate st.mb.shards.length .range) = g1 at inv1 ht1
    have hn1 : g1.workers.length = st.mb.shards.length := by
      have := congrArg List.length inv1.split
      simp only [ht1, List.map_nil, List.append_nil, List.length_map] at this
      omega
    have inv2 := inv1.fan_run more
    obtain ⟨ht2, hn2⟩ := Fanout.run_todo_nil more g1 ht1
    have hprog := Fanout.fan_progress more g1 (fun _ => 0) ht1 (fun _ _ _ => by simp)
    generalize g1.run more = g2 at inv2 ht2 hn2 hprog
    have hlive : liveCount g2.workers = 0 := by
      simp only [liveCount, List.countP_eq_zero]
      intro w hw
      obtain ⟨i, hi⟩ := List.mem_iff_getElem?.mp hw
      have hlt : i < st.mb.shards.length := by
        have := (List.getElem?_eq_some.mp hi).1
        omega
      have a := hprog i w hi
      have b := hfair i hlt
      simp only [Nat.zero_add] at a
      simp only [decide_eq_true_eq]
      omega
    have hwg : g2.wg = 0 := by rw [inv2.counter, hlive]
    cases hr : g2.result with
    | some r =>
      obtain ⟨rfl, -, -⟩ := inv2.done r hr
      simp [Fanout.run, Fanout.step, hr]
    | none => simp [Fanout.run, Fanout.step, hr, ht2, hwg]

/-- Witness for C6: `Range` visits the tenant shards in the order C, B, A, and
the three goroutines interleave with `Range` and with each other. -/
theorem shutdown_completeness_witness :
    runCalls (consumeCalls tenantRequests) tenantState = some tenantStateABC ∧
    ((fanoutStart tenantStateABC () .reversed).run tenantShutdownSchedule).result = some none ∧
    ((fanoutStart tenantStateABC () .reversed).run tenantShutdownSchedule).workers =
      [.exited 2, .exited 1, .exited 0] ∧
    ∀ s : Nat, s ∈ [0, 1, 2] →
      shutdownCount
        ((fanoutStart tenantStateABC () .reversed).run tenantShutdownSchedule).st.trace s = 1 := by
  have h := (shutdown_completeness tenantStateABC () .reversed tenantShutdownSchedule _ rfl rfl
    (by decide)).1 (by decide)
  obtain ⟨h1, h2, -, -, h5, -⟩ := h
  refine ⟨rfl, h1, h2, ?_⟩
  intro s hs
  have := h5 s hs
  have e : shutdownCount tenantStateABC.trace s = 0 := by
    simp [tenantStateABC, shutdownCount]
  omega

/-! ## C9: the bound of the worker pool -/

theorem sendingCount_set (fs : List Flush) (i : Nat) (f f1 : Flush) (h : fs[i]? = some f) :
    sendingCount (fs.set i f1) + (match f with | .sending _ => 1 | _ => 0) =
      sendingCount fs + (match f1 with | .sending _ => 1 | _ => 0) := by
  have := countP_set_add (fun f : Flush => match f with | .sending _ => true | _ => false)
    fs i f f1 h
  simp only [sendingCount]
  cases f <;> cases f1 <;> simpa using this

theorem PoolInv.cell_wp {n : Nat} {sys : PoolSys Ctx Req Key} (h : PoolInv n sys) (s : Nat)
    (cell : shardBatcher) (hc : sys.st.heap[s]? = some cell) : cell.wp = some 0 := by
  have hm := List.getElem?_mem hc
  rcases h.shared with ⟨p, hs⟩ | hs
  · rw [hs.cells cell hm]
    exact h.wp
  · rw [hs.heap, List.mem_singleton] at hm
    rw [hm]
    exact h.wp

theorem SeqInv.seq_with_chans {p : Ctx → Req → Key} {st : State Ctx Req Key} (h : SeqInv p st)
    (cs : List Chan) : SeqInv p { st with chans := cs } :=
  ⟨h.single, h.part, h.keys, h.vals, h.cells, h.starts, h.routed, h.asked⟩

theorem SingleInv.single_with_chans {st : State Ctx Req Key} (h : SingleInv st) (cs : List Chan) :
    SingleInv { st with chans := cs } :=
  ⟨h.single, h.part, h.heap, h.shards, h.asked, h.routed⟩

theorem PoolInv.acquire {n : Nat} {sys : PoolSys Ctx Req Key} (h : PoolInv n sys) (i : Nat) :
    PoolInv n (sys.acquire i) := by
  obtain ⟨c, hc, hcap, hsum⟩ := h.permits
  cases hi : sys.flushes[i]? with
  | none => simpa [PoolSys.acquire, hi] using h
  | some f =>
    cases f with
    | sending s => simpa [PoolSys.acquire, hi] using h
    | done s => simpa [PoolSys.acquire, hi] using h
    | waiting s =>
      cases hcell : sys.st.heap[s]? with
      | none => simpa [PoolSys.acquire, hi, hcell] using h
      | some cell =>
        have hwp := h.cell_wp s cell hcell
        have hch : sys.st.chans[0]? = some c := by simp [hc]
        by_cases hlen : 0 < c.len
        · have e : sys.acquire i =
              { st := { sys.st with chans := [{ c with len := c.len - 1 }] }
                flushes := sys.flushes.set i (.sending s) } := by
            simp [PoolSys.acquire, hi, hcell, hwp, hch, Chan.recv, hlen, hc]
          rw [e]
          have hcount := sendingCount_set sys.flushes i _ (.sending s) hi
          simp only at hcount
          refine ⟨?_, h.wp, ⟨_, rfl, hcap, by simp only; omega⟩, ?_⟩
          · rcases h.shared with ⟨p, hs⟩ | hs
            · exact Or.inl ⟨p, hs.seq_with_chans _⟩
            · exact Or.inr (hs.single_with_chans _)
          · intro j t hj
            simp only [List.getElem?_set] at hj
            by_cases e2 : i = j
            · simp only [e2, if_true] at hj
              split at hj
              · injection hj with hj
                injection hj with hj
                subst hj
                exact (List.getElem?_eq_some.mp hcell).1
              · cases hj
            · simp only [e2, if_false] at hj
              exact h.alive j t hj
        · have e : sys.acquire i = sys := by
            simp [PoolSys.acquire, hi, hcell, hwp, hch, Chan.recv, hlen]
          rw [e]
          exact h

theorem PoolInv.release {n : Nat} {sys : PoolSys Ctx Req Key} (h : PoolInv n sys) (i : Nat)
    (ok : Bool) : PoolInv n (sys.release i ok) ∧
      ∀ s : Nat, sys.flushes[i]? = some (.sending s) →
        (sys.release i ok).flushes[i]? = some (.done s) := by
  obtain ⟨c, hc, hcap, hsum⟩ := h.permits
  cases hi : sys.flushes[i]? with
  | none => exact ⟨by simpa [PoolSys.release, hi] using h, fun s hs => by cases hs⟩
  | some f =>
    cases f with
    | waiting s => exact ⟨by simpa [PoolSys.release, hi] using h, fun s hs => by cases hs⟩
    | done s => exact ⟨by simpa [PoolSys.release, hi] using h, fun s hs => by cases hs⟩
    | sending s =>
      have hlt := h.alive i s hi
      obtain ⟨cell, hcell⟩ : ∃ cell, sys.st.heap[s]? = some cell :=
        ⟨_, List.getElem?_eq_getElem hlt⟩
      have hwp := h.cell_wp s cell hcell
      have hch : sys.st.chans[0]? = some c := by simp [hc]
      have hcount := sendingCount_set sys.flushes i _ (.done s) hi
      simp only at hcount
      have hroom : c.len < c.cap := by omega
      have e : sys.release i ok =
          { st := { sys.st with chans := [{ c with len := c.len + 1 }] }
            flushes := sys.flushes.set i (.done s) } := by
        simp [PoolSys.release, hi, hcell, hwp, hch, Chan.send, hroom, hc]
      rw [e]
      have hil : i < sys.flushes.length := (List.getElem?_eq_some.mp hi).1
      refine ⟨⟨?_, h.wp, ⟨_, rfl, hcap, by simp only; omega⟩, ?_⟩, ?_⟩
      · rcases h.shared with ⟨p, hs⟩ | hs
        · exact Or.inl ⟨p, hs.seq_with_chans _⟩
        · exact Or.inr (hs.single_with_chans _)
      · intro j t hj
        simp only [List.getElem?_set] at hj
        by_cases e2 : i = j
        · simp only [e2, if_true] at hj
          split at hj <;> cases hj
        · simp only [e2, if_false] at hj
          exact h.alive j t hj
      · intro t ht
        injection ht with ht
        injection ht with ht
        subst ht
        simp [hil]

theorem PoolInv.pool_step {n : Nat} {sys : PoolSys Ctx Req Key} (h : PoolInv n sys)
    (a : PoolAction Ctx Req Key) : PoolInv n (sys.step a) := by
  cases a with
  | acquire i => exact h.acquire i
  | release i ok => exact (h.release i ok).1
  | submit s =>
    obtain ⟨c, hc, hcap, hsum⟩ := h.permits
    refine ⟨h.shared, h.wp, ⟨c, hc, hcap, ?_⟩, ?_⟩
    · simpa [PoolSys.step, sendingCount, List.countP_append] using hsum
    · intro j t hj
      simp only [PoolSys.step] at hj
      by_cases hl : j < sys.flushes.length
      · rw [List.getElem?_append_left hl] at hj
        exact h.alive j t hj
      · rw [List.getElem?_append_right (by omega)] at hj
        cases hk : j - sys.flushes.length with
        | zero => simp [hk] at hj
        | succ k => simp [hk] at hj
  | call c =>
    obtain ⟨ch, hc, hcap, hsum⟩ := h.permits
    rcases h.shared with ⟨p, hs⟩ | hs
    · obtain ⟨st1, e1, i1, ⟨a1, a2, a3, a4, a5, a6, a7, a8⟩, -, -, hle⟩ := hs.seq_call c
      simp only [PoolSys.step, e1]
      exact ⟨Or.inl ⟨p, i1⟩, a2.trans h.wp, ⟨ch, a8.trans hc, hcap, hsum⟩,
        fun j t hj => lt_of_lt_of_le (h.alive j t hj) hle⟩
    · obtain ⟨st1, e1, i1, a1, a2, a3, a4, a5, a6, a7, a8⟩ := hs.single_call c
      simp only [PoolSys.step, e1]
      refine ⟨Or.inr i1, a2.trans h.wp, ⟨ch, a8.trans hc, hcap, hsum⟩, ?_⟩
      intro j t hj
      have := h.alive j t hj
      rw [hs.heap] at this
      rw [i1.heap]
      simpa using this

theorem PoolInv.pool_run {n : Nat} (sched : List (PoolAction Ctx Req Key)) :
    ∀ {sys : PoolSys Ctx Req Key}, PoolInv n sys → PoolInv n (sys.run sched) := by
  induction sched with
  | nil => exact fun h => h
  | cons a rest ih => exact fun h => ih (h.pool_step a)

theorem poolStart_inv (bCfg : BatchConfig) (bSet : batcherSettings Ctx Req Key)
    (hN : 0 < bSet.maxWorkers) :
    ∃ st0, newMultiBatcher bCfg bSet = some st0 ∧ PoolInv bSet.maxWorkers.toNat (poolStart st0) := by
  obtain ⟨st, e, hc, hw⟩ := newMultiBatcher_pool bCfg bSet _ (newWorkerPool_pos _ hN)
  refine ⟨st, e, ?_, by simpa using hw, ⟨_, by simpa using hc, rfl, by simp [poolStart, sendingCount]⟩,
    ?_⟩
  · cases hp : bSet.partitioner with
    | none =>
      obtain ⟨st1, e1, i1, -⟩ := newMultiBatcher_single bCfg bSet hp (le_of_lt hN)
      rw [e] at e1
      cases e1
      exact Or.inr i1
    | some p =>
      obtain ⟨st1, e1, i1, -⟩ := newMultiBatcher_partitioned bCfg bSet p hp (le_of_lt hN)
      rw [e] at e1
      cases e1
      exact Or.inl ⟨p, i1⟩
  · intro i s hi
    simp [poolStart] at hi

/-- C9. A dispatcher is built with `maxWorkers = N > 0`; calls on it, new
flushes of any of its shards, permit acquisitions and releases then happen in
any order.  At every point the number of flushes that are executing a
downstream send, over all shards together, is at most `N`: the dispatcher has
one pool of capacity `N`, used by every shard, and the permits in the pool
plus the sends in flight always add up to `N`.  A flush that is sending can
always release its permit. -/
theorem worker_pool_bound (bCfg : BatchConfig) (bSet : batcherSettings Ctx Req Key)
    (hN : 0 < bSet.maxWorkers) (sched : List (PoolAction Ctx Req Key)) :
    ∃ st0, newMultiBatcher bCfg bSet = some st0 ∧
      (sendingCount ((poolStart st0).run sched).flushes : Int) ≤ bSet.maxWorkers ∧
      (∃ c : Chan, ((poolStart st0).run sched).st.chans = [c] ∧ (c.cap : Int) = bSet.maxWorkers ∧
        c.len + sendingCount ((poolStart st0).run sched).flushes = c.cap) ∧
      (∀ cell ∈ ((poolStart st0).run sched).st.heap, cell.wp = some 0) ∧
      (∀ (i s : Nat) (ok : Bool),
        ((poolStart st0).run sched).flushes[i]? = some (.sending s) →
        (((poolStart st0).run sched).release i ok).flushes[i]? = some (.done s)) := by
  obtain ⟨st0, e, inv0⟩ := poolStart_inv bCfg bSet hN
  have inv := inv0.pool_run sched
  obtain ⟨c, hc, hcap, hsum⟩ := inv.permits
  refine ⟨st0, e, ?_, ⟨c, hc, ?_, by omega⟩, ?_, ?_⟩
  · have : (bSet.maxWorkers.toNat : Int) = bSet.maxWorkers := Int.toNat_of_nonneg (le_of_lt hN)
    omega
  · have : (bSet.maxWorkers.toNat : Int) = bSet.maxWorkers := Int.toNat_of_nonneg (le_of_lt hN)
    omega
  · intro cell hcell
    obtain ⟨s, hs⟩ := List.mem_iff_getElem?.mp hcell
    exact inv.cell_wp s cell hs
  · intro i s ok hi
    exact (inv.release i ok).2 s hi

/-- Witness for C9: with two workers, the third flush cannot start its send
while two are sending, and starts it once a permit has been released. -/
theorem worker_pool_bound_witness :
    newMultiBatcher 7 plainSettings = some plainState ∧
    sendingCount ((poolStart plainState).run (plainSchedule.take 8)).flushes = 2 ∧
    ((poolStart plainState).run (plainSchedule.take 8)).st.chans = [⟨2, 0⟩] ∧
    ((poolStart plainState).run plainSchedule).flushes = [.done 0, .sending 0, .sending 0] ∧
    ∃ st0, newMultiBatcher 7 plainSettings = some st0 ∧
      (sendingCount ((poolStart st0).run plainSchedule).flushes : Int) ≤ 2 := by
  refine ⟨rfl, by decide, by decide, by decide, ?_⟩
  obtain ⟨st0, e, h, -⟩ := worker_pool_bound 7 plainSettings (by decide) plainSchedule
  exact ⟨st0, e, h⟩

/-! ## Well-formedness of the states a dispatcher reaches

The hypotheses on the state made in C2, C3 and C6 (the registry and the trace
mention only constructed shards; the registered shards are pairwise distinct)
hold in every state a partitioned dispatcher reaches from its construction by
calls that run one after another. -/

theorem State.WF.wf_call {p : Ctx → Req → Key} {st st1 : State Ctx Req Key} (h : SeqInv p st)
    (hwf : st.WF) (c : Call Ctx Req Key) (hc : runCall st c = some st1) : st1.WF := by
  cases c with
  | start ctx host =>
    simp only [runCall, Start_partitioned st ctx host h.single, Option.some.injEq] at hc
    subst hc
    exact hwf
  | shutdown ctx ord =>
    simp only [runCall, Shutdown_partitioned st ctx ord h.single, Option.map_some',
      Option.some.injEq] at hc
    subst hc
    refine ⟨hwf.registered, ?_, ?_⟩
    · intro s hs
      have a := hwf.started s hs
      rw [startCount_append, a, startCount_shutdowns]
    · intro s hs
      have a := hwf.stopped s hs
      have e : ((ord.visit st.mb.shards).map fun e => (Event.shutdown e.2 ctx : Event Ctx Req)) =
          ((ord.visit st.mb.shards).map Prod.snd).map fun t => Event.shutdown t ctx := by
        simp
      simp only
      rw [e, shutdownCount_order, a, Nat.zero_add]
      apply List.count_eq_zero_of_not_mem
      intro hm
      obtain ⟨ent, hent, rfl⟩ := List.mem_map.mp hm
      have hlt : @LT.lt Nat _ ent.2 st.heap.length :=
        hwf.registered ent ((ord.perm _).mem_iff.mp hent)
      simp only at hs
      omega
  | consume ctx req done =>
    simp only [runCall, Consume_partitioned st p ctx req done h.single h.part] at hc
    cases hl : SyncMap.Load st.mb.shards (p ctx req) with
    | some v =>
      simp only [hl, Option.some.injEq] at hc
      subst hc
      refine ⟨hwf.registered, ?_, ?_⟩
      · intro s hs
        have a := hwf.started s hs
        simp only [startCount] at a
        simp [startCount, List.countP_append, List.countP_cons, a]
      · intro s hs
        have a := hwf.stopped s hs
        simp only [shutdownCount] at a
        simp [shutdownCount, List.countP_append, List.countP_cons, a]
    | none =>
      simp only [hl, Option.some.injEq] at hc
      subst hc
      refine ⟨?_, ?_, ?_⟩
      · intro ent hent
        simp only [publishFresh, List.mem_append, List.mem_singleton] at hent
        simp only [publishFresh, List.length_append, List.length_singleton]
        rcases hent with hent | rfl
        · have hlt : @LT.lt Nat _ ent.2 st.heap.length := hwf.registered ent hent
          exact Nat.lt_succ_of_lt hlt
        · exact Nat.lt_succ_self _
      · intro s hs
        simp only [publishFresh, List.length_append, List.length_singleton] at hs
        have a := hwf.started s (by omega)
        simp only [startCount] at a
        have e : ¬ st.heap.length = s := by omega
        simp [startCount, List.countP_append, List.countP_cons, a, e]
      · intro s hs
        simp only [publishFresh, List.length_append, List.length_singleton] at hs
        have a := hwf.stopped s (by omega)
        simp only [shutdownCount] at a
        simp [shutdownCount, List.countP_append, List.countP_cons, a]

theorem State.WF.wf_calls {p : Ctx → Req → Key} (cs : List (Call Ctx Req Key)) :
    ∀ {st st1 : State Ctx Req Key}, SeqInv p st → st.WF → runCalls cs st = some st1 →
      st1.WF := by
  induction cs with
  | nil =>
    intro st st1 _ hwf hc
    simp only [runCalls, Option.some.injEq] at hc
    exact hc ▸ hwf
  | cons c cs ih =>
    intro st st1 h hwf hc
    obtain ⟨st2, e2, i2, -⟩ := h.seq_call c
    simp only [runCalls, e2, Option.some_bind] at hc
    exact ih i2 (hwf.wf_call h c e2) hc

theorem reachable_wf (bCfg : BatchConfig) (bSet : batcherSettings Ctx Req Key)
    (p : Ctx → Req → Key) (hp : bSet.partitioner = some p) (hw : 0 ≤ bSet.maxWorkers)
    (cs : List (Call Ctx Req Key)) :
    ∃ st0 st, newMultiBatcher bCfg bSet = some st0 ∧ runCalls cs st0 = some st ∧ st.WF ∧
      st.mb.singleShard = none ∧ st.mb.partitioner = some p ∧
      (st.mb.shards.map Prod.snd).Nodup := by
  obtain ⟨st0, e0, i0, hh, ht, hs, -⟩ := newMultiBatcher_partitioned bCfg bSet p hp hw
  obtain ⟨st, e1, i1, -⟩ := i0.seq_calls cs
  have hwf0 : st0.WF := by
    refine ⟨?_, ?_, ?_⟩
    · intro ent hent
      simp [hs] at hent
    · intro s _
      simp [ht, startCount]
    · intro s _
      simp [ht, shutdownCount]
  exact ⟨st0, st, e0, e1, hwf0.wf_calls cs i0 e1, i1.single, i1.part, i1.values_nodup⟩

end QueueBatch
